import Mathlib

/-!
Verification of the snapshot parser and rolling series aggregator of the
stock-data-visualization repository.

The parser is `parseEmailBody` (src/app/api/poll-gaggle/route.ts and the
gaggle-direct route): it splits the raw email body on the literal `<br/>`,
trims each line, keeps lines starting with `@ES`, tokenizes on whitespace
runs, rejects lines with fewer than 8 tokens, branches on whether the third
token is the literal `Min`, and reads price / count / four level tokens with
JavaScript `parseFloat` semantics (commas stripped for price and levels,
not for count); a line is dropped when price, count or a level is NaN.

The aggregator is the `fetchData` reducer and the `maxMessages` trim effect
in src/app/page.tsx: a message is absorbed when its `messageId` and `sent`
are truthy and the id is neither in the seen-id set nor already present as a
point of some series; each record is upserted into the series keyed by
(symbol, timeframe), the series is trimmed from the front while it exceeds
`maxMessages`, and changing `maxMessages` retroactively trims every series
with JavaScript `slice(-maxMessages)` semantics.

Numbers are modelled exactly: finite JavaScript numbers become rationals
(float64 rounding is idealized away), and the NaN / ±Infinity results of
`parseFloat` are explicit constructors.  Text is modelled as `List Char`.
All recursion is structural (loops carry an explicit fuel argument bounded
by the input length) so that concrete runs reduce in the kernel.
-/

/-- Result of a JavaScript numeric conversion: NaN, a signed infinity, or a
finite value modelled as a rational. -/
inductive JsNum where
  | nan : JsNum
  | inf : Bool → JsNum
  | num : ℚ → JsNum
deriving DecidableEq, Repr

/-- JavaScript `isNaN` on a conversion result. -/
def jsIsNaN : JsNum → Bool
  | JsNum.nan => true
  | _ => false

/-- Character class used by `trim` and the `/\s+/` tokenizer. -/
def isWs (c : Char) : Bool := c.isWhitespace

def notWs (c : Char) : Bool := !c.isWhitespace

/-- Value of a big-endian list of decimal digit characters. -/
def digitsToNat (ds : List Char) : ℕ :=
  ds.foldl (fun a c => 10 * a + (c.toNat - 48)) 0

/-- The characters of the literal `Infinity`. -/
def infChars : List Char := ['I', 'n', 'f', 'i', 'n', 'i', 't', 'y']

/-- JavaScript `parseFloat`: skip leading whitespace, read an optional sign,
then the longest prefix that is `Infinity` or a decimal literal
(digits, optional fraction, optional exponent); trailing characters are
ignored; if no numeric prefix exists the result is NaN.  The finite value
`± mantissa · 10^(±exp) / 10^(fraction length)` is built with `mkRat` from
an integer numerator and a power-of-ten denominator. -/
def parseFloatCL (s : List Char) : JsNum :=
  let cs0 := s.dropWhile isWs
  let neg : Bool := cs0.head? == some '-'
  let cs := if cs0.head? == some '-' || cs0.head? == some '+' then cs0.tail else cs0
  if cs.take 8 = infChars then JsNum.inf neg
  else
    let ip := cs.takeWhile Char.isDigit
    let rest1 := cs.dropWhile Char.isDigit
    let fp := if rest1.head? == some '.' then rest1.tail.takeWhile Char.isDigit else []
    let rest2 := if rest1.head? == some '.' then rest1.tail.dropWhile Char.isDigit else rest1
    if ip = [] ∧ fp = [] then JsNum.nan
    else
      let m : ℕ := digitsToNat ip * 10 ^ fp.length + digitsToNat fp
      let d : ℕ := 10 ^ fp.length
      let scaled : ℕ × ℕ :=
        if rest2.head? == some 'e' || rest2.head? == some 'E' then
          let r := rest2.tail
          let esign : Bool := r.head? == some '-'
          let r1 := if r.head? == some '-' || r.head? == some '+' then r.tail else r
          let ed := r1.takeWhile Char.isDigit
          if ed = [] then (m, d)
          else if esign then (m, d * 10 ^ digitsToNat ed)
          else (m * 10 ^ digitsToNat ed, d)
        else (m, d)
      JsNum.num (mkRat (if neg then -(scaled.1 : ℤ) else (scaled.1 : ℤ)) scaled.2)

/-- JavaScript `String.prototype.trim`. -/
def trimCL (s : List Char) : List Char :=
  ((s.dropWhile isWs).reverse.dropWhile isWs).reverse

/-- Splitter worker for `split('<br/>')`; the fuel argument only bounds the
recursion and equals the input length at the top call. -/
def splitOnAuxF (sep : List Char) : ℕ → List Char → List (List Char)
  | _, [] => [[]]
  | 0, s => [s]
  | f + 1, c :: rest =>
      if sep.isPrefixOf (c :: rest) then
        [] :: splitOnAuxF sep f (rest.drop (sep.length - 1))
      else
        match splitOnAuxF sep f rest with
        | [] => [[c]]
        | piece :: ps => (c :: piece) :: ps

/-- JavaScript `String.prototype.split` with a non-empty string separator. -/
def splitOnCL (sep s : List Char) : List (List Char) :=
  if sep = [] then [s] else splitOnAuxF sep s.length s

/-- Worker producing the maximal whitespace-free runs of a string. -/
def wsTokensF : ℕ → List Char → List (List Char)
  | _, [] => []
  | 0, s => [s]
  | f + 1, c :: rest =>
      if c.isWhitespace then wsTokensF f rest
      else (c :: rest.takeWhile notWs) :: wsTokensF f (rest.dropWhile notWs)

def wsTokens (s : List Char) : List (List Char) := wsTokensF s.length s

/-- JavaScript `split(/\s+/)`: the maximal non-whitespace runs, plus an empty
leading piece when the string starts with whitespace and an empty trailing
piece when it ends with whitespace. -/
def jsSplitWsCL (s : List Char) : List (List Char) :=
  if s = [] then [[]]
  else
    let lead := if isWs (s.headD ' ') then [([] : List Char)] else []
    let trail := if isWs (s.getLastD ' ') then [([] : List Char)] else []
    lead ++ wsTokens s ++ trail

/-- The fixed ticker marker `@ES` (SYMBOL_PREFIX in the route). -/
def symTag : List Char := ['@', 'E', 'S']

/-- The literal delimiter `<br/>` (SPLIT_CHAR in the route). -/
def brTag : List Char := ['<', 'b', 'r', '/', '>']

/-- The sub-day branch marker: the literal third token `Min`. -/
def tagMin : List Char := ['M', 'i', 'n']

/-- One parsed snapshot record. -/
structure MatrixItem where
  symbol : List Char
  timeframe : List Char
  price : JsNum
  count : JsNum
  levels : List JsNum
deriving DecidableEq, Repr

/-- `x.replace(/,/g, '')`. -/
def stripCommas (t : List Char) : List Char := t.filter (fun c => c ≠ ',')

/-- parseFloat after stripping thousands separators (price and level tokens). -/
def tokNumS (t : List Char) : JsNum := parseFloatCL (stripCommas t)

/-- The per-line body of `parseEmailBody`: reject fewer than 8 tokens, branch
on whether the third token is `Min`, read the numeric fields, and drop the
line when price, count or any level is NaN.  `p.slice(5, 9)` and
`p.slice(4, 8)` are `(drop _).take 4`. -/
def parseTokens (p : List (List Char)) : Option MatrixItem :=
  if p.length < 8 then none
  else
    let r : MatrixItem :=
      if p.getD 2 [] = tagMin then
        { symbol := p.getD 0 [], timeframe := p.getD 1 [] ++ ' ' :: p.getD 2 [],
          price := tokNumS (p.getD 3 []), count := parseFloatCL (p.getD 4 []),
          levels := ((p.drop 5).take 4).map tokNumS }
      else
        { symbol := p.getD 0 [], timeframe := p.getD 1 [],
          price := tokNumS (p.getD 2 []), count := parseFloatCL (p.getD 3 []),
          levels := ((p.drop 4).take 4).map tokNumS }
    if jsIsNaN r.price || jsIsNaN r.count || r.levels.any jsIsNaN then none else some r

/-- `parseEmailBody` generalized over the line delimiter: split, trim each
line, keep lines starting with `@ES`, parse each, drop the failures. -/
def parseEmailBodyWith (sep : List Char) (body : String) : List MatrixItem :=
  if body.data = [] then []
  else
    ((((splitOnCL sep body.data).map trimCL).filter
        (fun l => symTag.isPrefixOf l)).map
      (fun l => parseTokens (jsSplitWsCL l))).reduceOption

/-- `parseEmailBody` of the routes, with the fixed `<br/>` delimiter. -/
def parseEmailBody (body : String) : List MatrixItem := parseEmailBodyWith brTag body

example : parseEmailBody "@ES 5 Min 4,500.25 12 4490.00 4495.00 4510.00 4515.00" =
    [{ symbol := "@ES".data, timeframe := "5 Min".data,
       price := JsNum.num (mkRat 18001 4), count := JsNum.num 12,
       levels := [JsNum.num 4490, JsNum.num 4495, JsNum.num 4510, JsNum.num 4515] }] := by
  decide

example : parseEmailBody "@ES Daily abc 12 1 2 3 4" = [] := by decide

example : (parseEmailBody "@ES 5 Min 4,500.25 12 4490.00 4495.00 4510.00").map
    (fun r => r.levels.length) = [3] := by decide

example : (parseEmailBody "@ES Daily Infinity 12 1 2 3 4").map (fun r => r.price) =
    [JsNum.inf false] := by decide

example : (parseEmailBody "@ES Daily 4500.25 1,234 1 2 3 4").map (fun r => r.count) =
    [JsNum.num 1] := by decide

/-! ### Serialization (`generateRawMatrix` in src/app/page.tsx) -/

/-- Decimal digit characters of a natural number, most significant first;
the fuel argument only bounds the recursion and is the number itself at the
top call. -/
def natToCharsF : ℕ → ℕ → List Char
  | 0, n => [Nat.digitChar n]
  | f + 1, n =>
      if n < 10 then [Nat.digitChar n]
      else natToCharsF f (n / 10) ++ [Nat.digitChar (n % 10)]

def natToChars (n : ℕ) : List Char := natToCharsF n n

/-- Two-digit rendering of a remainder `r < 100`. -/
def pad2 (r : ℕ) : List Char := if r < 10 then '0' :: natToChars r else natToChars r

/-- `⌊(n / d) * 100 + 1/2⌋`: the scaled integer chosen by `toFixed(2)`
(closest hundredth, ties to the larger). -/
def halfUpScaled (n : ℤ) (d : ℕ) : ℤ := Int.fdiv (200 * n + d) (2 * d)

/-- Digits of `toFixed(2)` for a non-negative scaled value `n` (in
hundredths): integer part, dot, two fraction digits. -/
def fixed2Digits (n : ℕ) : List Char := natToChars (n / 100) ++ '.' :: pad2 (n % 100)

/-- JavaScript `Number.prototype.toFixed(2)` on a finite value: a negative
value renders as `-` followed by `toFixed(2)` of its magnitude. -/
def toFixed2CL (q : ℚ) : List Char :=
  if q.num < 0 then '-' :: fixed2Digits (halfUpScaled (-q.num) q.den).toNat
  else fixed2Digits (halfUpScaled q.num q.den).toNat

/-- `toFixed(2)` on any JavaScript number: `NaN` and the infinities render
as their `ToString` forms. -/
def jsToFixed2 : JsNum → List Char
  | JsNum.nan => "NaN".data
  | JsNum.inf true => "-Infinity".data
  | JsNum.inf false => "Infinity".data
  | JsNum.num q => toFixed2CL q

/-- The exact value denoted by the `toFixed(2)` rendering: the input rounded
to hundredths (away from zero on ties), infinities and NaN unchanged. -/
def round2 : JsNum → JsNum
  | JsNum.nan => JsNum.nan
  | JsNum.inf b => JsNum.inf b
  | JsNum.num q =>
      JsNum.num (if q.num < 0 then mkRat (-halfUpScaled (-q.num) q.den) 100
                 else mkRat (halfUpScaled q.num q.den) 100)

/-- A parsed record with every numeric field rounded to two decimals. -/
def roundRec (r : MatrixItem) : MatrixItem :=
  { r with price := round2 r.price, count := round2 r.count,
           levels := r.levels.map round2 }

/-- One line of `generateRawMatrix`:
`symbol timeframe price(2dp) count(2dp) levels(2dp each)` space-separated. -/
def formatRowCL (r : MatrixItem) : List Char :=
  r.symbol ++ ' ' :: r.timeframe ++ ' ' :: jsToFixed2 r.price ++ ' '
    :: jsToFixed2 r.count ++ ' ' :: List.intercalate [' '] (r.levels.map jsToFixed2)

/-- `generateRawMatrix`: one line per record, newline-joined. -/
def generateRawMatrix (items : List MatrixItem) : String :=
  String.mk (List.intercalate ['\n'] (items.map formatRowCL))

/-! ### Rolling series store (`fetchData` and the `maxMessages` trim effect
in src/app/page.tsx) -/

/-- One stored series point (`MessageItem` in page.tsx). -/
structure MessageItem where
  sent : List Char
  price : JsNum
  count : JsNum
  levels : List JsNum
  messageId : List Char
deriving DecidableEq, Repr

/-- One series: a (symbol, timeframe) key and its ordered points
(`SymbolTimeframeData` in page.tsx). -/
structure SymbolTimeframeData where
  symbol : List Char
  timeframe : List Char
  items : List MessageItem
deriving DecidableEq, Repr

/-- One fetched envelope (`ApiResponse` in page.tsx): the parsed records
plus nullable message identity. -/
structure ApiResponse where
  items : List MatrixItem
  messageId : Option (List Char)
  sent : Option (List Char)
deriving DecidableEq, Repr

/-- The aggregator's mutable state: the series collection, the seen-id set
(modelled as a list queried by membership), and the `maxMessages` bound. -/
structure AggState where
  data : List SymbolTimeframeData
  seen : List (List Char)
  maxMessages : ℕ
deriving DecidableEq, Repr

/-- Initial state: no series, no seen ids, `useState(10)` bound. -/
def initState : AggState := { data := [], seen := [], maxMessages := 10 }

/-- JavaScript truthiness of a nullable string: null and `""` are falsy. -/
def truthyOpt : Option (List Char) → Bool
  | none => false
  | some s => !s.isEmpty

/-- The `while (items.length > maxMessages) items.shift()` loop. -/
def shiftWhile (maxM : ℕ) : List MessageItem → List MessageItem
  | [] => []
  | x :: xs => if xs.length + 1 > maxM then shiftWhile maxM xs else x :: xs

/-- The body of `result.items.forEach` in `fetchData`: find the series for
the record's key; if present and free of this `messageId`, push the new
point and trim from the front; otherwise create a fresh one-point series. -/
def upsertOne (maxM : ℕ) (sent mid : List Char)
    (nd : List SymbolTimeframeData) (item : MatrixItem) : List SymbolTimeframeData :=
  let mi : MessageItem :=
    { sent := sent, price := item.price, count := item.count,
      levels := item.levels, messageId := mid }
  match nd.findIdx? (fun d => d.symbol == item.symbol && d.timeframe == item.timeframe) with
  | some idx =>
    match nd.get? idx with
    | some d =>
      if d.items.any (fun e => e.messageId == mid) then nd
      else nd.set idx { d with items := shiftWhile maxM (d.items ++ [mi]) }
    | none => nd
  | none => nd ++ [{ symbol := item.symbol, timeframe := item.timeframe, items := [mi] }]

/-- Does any series already contain a point with this message id? -/
def msgIdExists (dat : List SymbolTimeframeData) (mid : List Char) : Bool :=
  dat.any (fun sd => sd.items.any (fun it => it.messageId == mid))

/-- One `fetchData` ingestion step: when `messageId` and `sent` are truthy
and the id is unseen, record the id and — unless some series already holds a
point with it — upsert every record of the envelope; otherwise leave the
state unchanged. -/
def absorb (st : AggState) (resp : ApiResponse) : AggState :=
  let mid := resp.messageId.getD []
  let sent := resp.sent.getD []
  if truthyOpt resp.messageId && !st.seen.contains mid && truthyOpt resp.sent then
    let seen' := mid :: st.seen
    let data' :=
      if msgIdExists st.data mid then st.data
      else resp.items.foldl (upsertOne st.maxMessages sent mid) st.data
    { data := data', seen := seen', maxMessages := st.maxMessages }
  else st

/-- JavaScript `arr.slice(-n)` for a non-negative `n`: the trailing `n`
elements — except that `slice(-0)` is `slice(0)`, the whole array. -/
def jsSliceNeg (n : ℕ) (l : List α) : List α :=
  if n = 0 then l else l.drop (l.length - n)

/-- The `maxMessages` trim effect: set the bound and cut every series to
`items.slice(-maxMessages)`. -/
def rebound (st : AggState) (n : ℕ) : AggState :=
  { data := st.data.map (fun d => { d with items := jsSliceNeg n d.items }),
    seen := st.seen, maxMessages := n }

example : toFixed2CL (mkRat 18001 4) = "4500.25".data := by decide

example :
    (rebound (absorb initState
        { items := [{ symbol := "@ES".data, timeframe := "Daily".data,
                      price := JsNum.num 1, count := JsNum.num 2,
                      levels := [JsNum.num 3] }],
          messageId := some "m1".data, sent := some "t1".data }) 0).data.map
      (fun d => d.items.length) = [1] := by decide

example :
    (parseEmailBody (generateRawMatrix
      (parseEmailBody "@ES 5 Min 4,500.256 12 4490.00 4495.00 4510.00 4515.00"))).map
      (fun r => r.price) = [JsNum.num (mkRat 450026 100)] := by decide

/-- Whether an envelope passes every gate of `fetchData`: truthy id and
timestamp, id not yet seen, and no series already holding a point with it. -/
def absorbGate (st : AggState) (resp : ApiResponse) : Prop :=
  truthyOpt resp.messageId = true ∧ truthyOpt resp.sent = true ∧
  st.seen.contains (resp.messageId.getD []) = false ∧
  msgIdExists st.data (resp.messageId.getD []) = false

instance (st : AggState) (resp : ApiResponse) : Decidable (absorbGate st resp) := by
  unfold absorbGate
  infer_instance

/-- Sample record used in concrete runs of the aggregator. -/
def sampleItem : MatrixItem :=
  { symbol := ['s'], timeframe := ['t'], price := JsNum.num 1,
    count := JsNum.num 2, levels := [JsNum.num 3] }

/-- Sample envelope carrying `sampleItem` with a fresh, truthy identity. -/
def envA : ApiResponse :=
  { items := [sampleItem], messageId := some ['m', '1'], sent := some ['t', '1'] }

/-- Envelope whose `messageId` is the empty string: non-null but falsy. -/
def envEmptyId : ApiResponse :=
  { items := [sampleItem], messageId := some [], sent := some ['t', '1'] }

/-- Envelope with a null `messageId`. -/
def envNullId : ApiResponse :=
  { items := [sampleItem], messageId := none, sent := some ['t', '1'] }

/-- Sample series points used in concrete runs of the trim loop. -/
def mi (tag : Char) : MessageItem :=
  { sent := ['u'], price := JsNum.num 1, count := JsNum.num 2,
    levels := [], messageId := [tag] }

/-- A state holding one two-point series, as produced by two absorbs. -/
def twoPointState : AggState :=
  { data := [{ symbol := ['s'], timeframe := ['t'], items := [ mi 'a', mi 'b'] }],
    seen := [['a'], ['b']], maxMessages := 10 }

/-- The 8-token sub-day token list of the C1 counterexample line. -/
def tokensMin8 : List (List Char) :=
  ["@ES".data, "5".data, "Min".data, "4,500.25".data, "12".data,
   "4490.00".data, "4495.00".data, "4510.00".data]

/-- The record parsed from `tokensMin8`; its price 4500.25 is 18001/4. -/
def recMin8 : MatrixItem :=
  { symbol := "@ES".data, timeframe := "5 Min".data,
    price := JsNum.num (mkRat 18001 4), count := JsNum.num 12,
    levels := [JsNum.num 4490, JsNum.num 4495, JsNum.num 4510] }

/-- The record parsed from the Daily line of C7. -/
def recDaily : MatrixItem :=
  { symbol := "@ES".data, timeframe := "Daily".data,
    price := JsNum.num (mkRat 18001 4), count := JsNum.num 12,
    levels := [JsNum.num 4490, JsNum.num 4495, JsNum.num 4510, JsNum.num 4515] }

/-! ### Lemmas about the trim loops -/

theorem shiftWhile_eq_drop (m : ℕ) (l : List MessageItem) :
    shiftWhile m l = l.drop (l.length - m) := by
  induction l with
  | nil => simp [shiftWhile]
  | cons x xs ih =>
    simp only [shiftWhile]
    split
    · next h =>
      rw [ih]
      have h2 : (x :: xs).length - m = (xs.length - m) + 1 := by
        simp only [List.length_cons]; omega
      rw [h2, List.drop_succ_cons]
    · next h =>
      have h2 : (x :: xs).length - m = 0 := by
        simp only [List.length_cons]; omega
      rw [h2]
      rfl

theorem shiftWhile_length (m : ℕ) (l : List MessageItem) :
    (shiftWhile m l).length = min l.length m := by
  rw [shiftWhile_eq_drop, List.length_drop]
  omega

theorem upsertOne_bound {maxM : ℕ} (h1 : 1 ≤ maxM) (sent mid : List Char)
    (item : MatrixItem) (nd : List SymbolTimeframeData)
    (h : ∀ d ∈ nd, d.items.length ≤ maxM) :
    ∀ d ∈ upsertOne maxM sent mid nd item, d.items.length ≤ maxM := by
  intro d hd
  simp only [upsertOne] at hd
  split at hd
  · split at hd
    · split at hd
      · exact h d hd
      · rcases List.mem_or_eq_of_mem_set hd with h' | h'
        · exact h d h'
        · subst h'
          simp only [shiftWhile_length]
          omega
    · exact h d hd
  · rcases List.mem_append.mp hd with h' | h'
    · exact h d h'
    · simp only [List.mem_singleton] at h'
      subst h'
      simpa using h1

theorem foldl_upsert_bound {maxM : ℕ} (h1 : 1 ≤ maxM) (sent mid : List Char)
    (items : List MatrixItem) :
    ∀ nd, (∀ d ∈ nd, d.items.length ≤ maxM) →
      ∀ d ∈ items.foldl (upsertOne maxM sent mid) nd, d.items.length ≤ maxM := by
  induction items with
  | nil => intro nd h d hd; exact h d hd
  | cons it its ih =>
    intro nd h
    exact ih _ (upsertOne_bound h1 sent mid it nd h)

/-! ### Claim C3: the length bound -/

/-- C3 counterexample: starting from the initial state, absorbing one
envelope and then re-bounding to 0 completes with `maxLength = 0` while the
single series still holds 1 point — `slice(-0)` keeps the whole array, so
the claimed `len(points) <= maxLength` fails for the bound value 0. -/
theorem bound_violated_at_zero :
    (rebound (absorb initState envA) 0).maxMessages = 0 ∧
    (rebound (absorb initState envA) 0).data.map (fun d => d.items.length) = [1] := by
  decide

/-- C3 (amended): after an absorb the bound invariant is preserved provided
the current `maxLength` is at least 1, and a rebound to any `n ≥ 1` leaves
every series within the new bound. -/
theorem bound_invariant_preserved :
    (∀ st resp, 1 ≤ st.maxMessages →
        (∀ d ∈ st.data, d.items.length ≤ st.maxMessages) →
        ∀ d ∈ (absorb st resp).data, d.items.length ≤ (absorb st resp).maxMessages) ∧
    (∀ st n, 1 ≤ n →
        ∀ d ∈ (rebound st n).data, d.items.length ≤ (rebound st n).maxMessages) := by
  constructor
  · intro st resp h1 hinv
    simp only [absorb]
    split
    · split
      · intro d hd
        exact hinv d hd
      · intro d hd
        exact foldl_upsert_bound h1 _ _ resp.items st.data hinv d hd
    · intro d hd
      exact hinv d hd
  · intro st n h1 d hd
    simp only [rebound] at hd ⊢
    rcases List.mem_map.mp hd with ⟨d0, _, rfl⟩
    simp only [jsSliceNeg]
    rw [if_neg (by omega)]
    simp only [List.length_drop]
    omega

/-- Witness for C3 (amended), at the initial state and a sample envelope. -/
theorem bound_invariant_preserved_at_inputs :
    ({ symbol := ['s'], timeframe := ['t'],
       items := [{ sent := ['t', '1'], price := JsNum.num 1, count := JsNum.num 2,
                   levels := [JsNum.num 3],
                   messageId := ['m', '1'] }] } : SymbolTimeframeData).items.length ≤
      (absorb initState envA).maxMessages :=
  bound_invariant_preserved.1 initState envA (by decide) (by decide) _ (by decide)

/-! ### Claim C4: idempotent absorb -/

/-- C4: absorbing the same envelope twice gives exactly the state of
absorbing it once — after the first absorb the id is in the seen set, so the
second call falls through the gate untouched. -/
theorem absorb_idempotent (st : AggState) (resp : ApiResponse) :
    absorb (absorb st resp) resp = absorb st resp := by
  by_cases h : (truthyOpt resp.messageId && !st.seen.contains (resp.messageId.getD [])
      && truthyOpt resp.sent) = true
  · have e : absorb st resp =
        { data := if msgIdExists st.data (resp.messageId.getD []) then st.data
                  else resp.items.foldl
                    (upsertOne st.maxMessages (resp.sent.getD []) (resp.messageId.getD []))
                    st.data,
          seen := resp.messageId.getD [] :: st.seen,
          maxMessages := st.maxMessages } := by
      simp only [absorb, h, if_true]
    rw [e]
    simp only [absorb]
    rw [if_neg]
    simp
  · have e : absorb st resp = st := by
      simp only [absorb, h]
      simp [Bool.not_eq_true] at h
      simp [h]
    rw [e]
    exact e

/-! ### Claim C5: FIFO eviction -/

/-- C5: when pushing a point makes a series exceed the bound, the trim loop
leaves exactly the trailing `maxM` elements of the pre-trim sequence — the
dropped elements are precisely the oldest initial block, and the survivors
keep their order. -/
theorem fifo_eviction (maxM : ℕ) (l : List MessageItem) (x : MessageItem)
    (h : maxM < (l ++ [x]).length) :
    shiftWhile maxM (l ++ [x]) = (l ++ [x]).drop ((l ++ [x]).length - maxM) ∧
    (shiftWhile maxM (l ++ [x])).length = maxM ∧
    (l ++ [x]).take ((l ++ [x]).length - maxM) ++ shiftWhile maxM (l ++ [x]) = l ++ [x] := by
  refine ⟨shiftWhile_eq_drop maxM (l ++ [x]), ?_, ?_⟩
  · rw [shiftWhile_length]
    omega
  · rw [shiftWhile_eq_drop]
    exact List.take_append_drop _ _

/-- Witness for C5: four points, bound 2 — the two oldest are evicted. -/
theorem fifo_eviction_at_inputs :
    shiftWhile 2 ([ mi 'a', mi 'b', mi 'c'] ++ [ mi 'd']) =
      ([ mi 'a', mi 'b', mi 'c'] ++ [ mi 'd']).drop
        (([ mi 'a', mi 'b', mi 'c'] ++ [ mi 'd']).length - 2) ∧
    (shiftWhile 2 ([ mi 'a', mi 'b', mi 'c'] ++ [ mi 'd'])).length = 2 ∧
    ([ mi 'a', mi 'b', mi 'c'] ++ [ mi 'd']).take
        (([ mi 'a', mi 'b', mi 'c'] ++ [ mi 'd']).length - 2) ++
      shiftWhile 2 ([ mi 'a', mi 'b', mi 'c'] ++ [ mi 'd']) =
      [ mi 'a', mi 'b', mi 'c'] ++ [ mi 'd'] :=
  fifo_eviction 2 [ mi 'a', mi 'b', mi 'c'] (mi 'd') (by decide)

/-! ### Claim C6: rebound -/

theorem jsSliceNeg_idem {α : Type} (n : ℕ) (l : List α) :
    jsSliceNeg n (jsSliceNeg n l) = jsSliceNeg n l := by
  by_cases hn : n = 0
  · simp [jsSliceNeg, hn]
  · simp only [jsSliceNeg, if_neg hn, List.length_drop]
    rw [List.drop_drop]
    congr 1
    omega

/-- C6 counterexample: re-bounding to 0 a state with a one-point series does
not truncate that series to its trailing 0 points — `slice(-0)` keeps the
whole array, so the point survives. -/
theorem rebound_zero_does_not_truncate :
    (rebound (absorb initState envA) 0).data ≠
      (absorb initState envA).data.map
        (fun d => { d with items := d.items.drop (d.items.length - 0) }) := by
  decide

/-- C6 (amended): for every bound `n ≥ 1`, rebounding sets `maxLength = n`
and cuts every series to its trailing `n` points (all of them when fewer
exist); rebounding is idempotent for every `n`, including 0 — but
`Rebound(0)` keeps all points instead of truncating to none. -/
theorem rebound_truncates_and_idempotent :
    (∀ st n, 1 ≤ n → (rebound st n).maxMessages = n ∧
        (rebound st n).data =
          st.data.map (fun d => { d with items := d.items.drop (d.items.length - n) })) ∧
    (∀ st n, rebound (rebound st n) n = rebound st n) := by
  constructor
  · intro st n h1
    refine ⟨rfl, ?_⟩
    simp only [rebound]
    apply List.map_congr_left
    intro d _
    have hn : ¬ n = 0 := by omega
    simp [jsSliceNeg, hn]
  · intro st n
    simp only [rebound, List.map_map]
    congr 1
    apply List.map_congr_left
    intro d _
    simp only [Function.comp_apply]
    rw [jsSliceNeg_idem]

/-- Witness for C6 (amended), at a concrete two-point state and `n = 1`. -/
theorem rebound_truncates_at_inputs :
    (rebound twoPointState 1).maxMessages = 1 ∧
    (rebound twoPointState 1).data =
      twoPointState.data.map
        (fun d => { d with items := d.items.drop (d.items.length - 1) }) :=
  rebound_truncates_and_idempotent.1 twoPointState 1 (by decide)

/-! ### Claim C8: the absorb gate -/

/-- C8 counterexample: an envelope whose `messageId` is the empty string has
a non-null id and timestamp, is unseen, and collides with no series point,
yet it is discarded — JavaScript truthiness rejects `""` — so the claimed
"absorb iff non-null and fresh" fails. -/
theorem empty_id_discarded :
    absorb initState envEmptyId = initState ∧ envEmptyId.messageId ≠ none ∧
    envEmptyId.sent ≠ none ∧ initState.seen = [] ∧ initState.data = [] ∧
    envEmptyId.items ≠ [] := by
  decide

/-- C8 (amended): the series store ingests an envelope exactly when its
`messageId` and `sent` are truthy (non-null and non-empty), the id is not in
the seen set, and no series holds a point with it; whenever any of these
fails, every series is left unchanged. -/
theorem absorb_gate_characterization (st : AggState) (resp : ApiResponse) :
    (¬ absorbGate st resp → (absorb st resp).data = st.data) ∧
    (absorbGate st resp → (absorb st resp).data =
        resp.items.foldl
          (upsertOne st.maxMessages (resp.sent.getD []) (resp.messageId.getD []))
          st.data) := by
  constructor
  · intro hng
    simp only [absorb]
    split
    · next hb =>
      simp only [Bool.and_eq_true, Bool.not_eq_true'] at hb
      split
      · rfl
      · next hex =>
        exfalso
        exact hng ⟨hb.1.1, hb.2, hb.1.2, by simpa using hex⟩
    · rfl
  · intro hg
    obtain ⟨h1, h2, h3, h4⟩ := hg
    simp only [absorb]
    rw [if_pos (by rw [h1, h2, h3]; rfl)]
    simp only [h4]
    rfl

/-- Witness for C8 (amended): a null-id envelope leaves the store unchanged,
and a fresh truthy envelope is ingested record by record. -/
theorem absorb_gate_at_inputs :
    (absorb initState envNullId).data = initState.data ∧
    (absorb initState envA).data =
      envA.items.foldl
        (upsertOne initState.maxMessages (envA.sent.getD []) (envA.messageId.getD []))
        initState.data :=
  ⟨(absorb_gate_characterization initState envNullId).1 (by decide),
   (absorb_gate_characterization initState envA).2 (by decide)⟩

/-! ### Character classes and parser inversion -/

theorem digit_ne_chars {c : Char} (h : c.isDigit = true) :
    c ≠ '-' ∧ c ≠ '+' ∧ c ≠ '.' ∧ c ≠ 'e' ∧ c ≠ 'E' ∧ c ≠ 'I' ∧ c ≠ 'M' ∧
    c ≠ '<' ∧ c ≠ ',' ∧ c ≠ 'N' := by
  refine ⟨?_, ?_, ?_, ?_, ?_, ?_, ?_, ?_, ?_, ?_⟩ <;> rintro rfl <;>
    exact absurd h (by decide)

theorem digit_not_ws {c : Char} (h : c.isDigit = true) : isWs c = false := by
  cases hb : isWs c
  · rfl
  · exfalso
    simp only [isWs, Char.isWhitespace, Bool.or_eq_true, decide_eq_true_eq] at hb
    rcases hb with ((rfl | rfl) | rfl) | rfl <;> exact absurd h (by decide)

theorem jsIsNaN_eq_false {x : JsNum} : jsIsNaN x = false ↔ x ≠ JsNum.nan := by
  cases x <;> simp [jsIsNaN]

/-- Token-level inversion: a record produced by `parseTokens` has passed the
8-token threshold and the NaN filter, and its fields are the positional
reads of the taken branch. -/
theorem parseTokens_inversion {p : List (List Char)} {r : MatrixItem}
    (h : parseTokens p = some r) :
    8 ≤ p.length ∧
    r.price ≠ JsNum.nan ∧ r.count ≠ JsNum.nan ∧ (∀ x ∈ r.levels, x ≠ JsNum.nan) ∧
    ((p.getD 2 [] = tagMin ∧ r.symbol = p.getD 0 [] ∧
        r.timeframe = p.getD 1 [] ++ ' ' :: p.getD 2 [] ∧
        r.price = tokNumS (p.getD 3 []) ∧ r.count = parseFloatCL (p.getD 4 []) ∧
        r.levels = ((p.drop 5).take 4).map tokNumS) ∨
      (p.getD 2 [] ≠ tagMin ∧ r.symbol = p.getD 0 [] ∧ r.timeframe = p.getD 1 [] ∧
        r.price = tokNumS (p.getD 2 []) ∧ r.count = parseFloatCL (p.getD 3 []) ∧
        r.levels = ((p.drop 4).take 4).map tokNumS)) := by
  simp only [parseTokens] at h
  split at h
  · exact absurd h (by simp)
  · next hlen =>
    by_cases hm : p.getD 2 [] = tagMin
    · simp only [if_pos hm] at h
      split at h
      · exact absurd h (by simp)
      · next hfilter =>
        rw [Option.some.injEq] at h
        subst h
        simp only [Bool.or_eq_true, not_or, Bool.not_eq_true] at hfilter
        obtain ⟨⟨hp, hc⟩, hl⟩ := hfilter
        rw [List.any_eq_false] at hl
        exact ⟨by omega, jsIsNaN_eq_false.mp hp, jsIsNaN_eq_false.mp hc,
          fun x hx => jsIsNaN_eq_false.mp (by simpa using hl x hx),
          Or.inl ⟨hm, rfl, rfl, rfl, rfl, rfl⟩⟩
    · simp only [if_neg hm] at h
      split at h
      · exact absurd h (by simp)
      · next hfilter =>
        rw [Option.some.injEq] at h
        subst h
        simp only [Bool.or_eq_true, not_or, Bool.not_eq_true] at hfilter
        obtain ⟨⟨hp, hc⟩, hl⟩ := hfilter
        rw [List.any_eq_false] at hl
        exact ⟨by omega, jsIsNaN_eq_false.mp hp, jsIsNaN_eq_false.mp hc,
          fun x hx => jsIsNaN_eq_false.mp (by simpa using hl x hx),
          Or.inr ⟨hm, rfl, rfl, rfl, rfl, rfl⟩⟩

/-- The levels sequence of a parsed record has 3 elements exactly on a
sub-day line with exactly 8 tokens, and 4 elements otherwise. -/
theorem parseTokens_levels_length {p : List (List Char)} {r : MatrixItem}
    (h : parseTokens p = some r) :
    r.levels.length = if p.getD 2 [] = tagMin ∧ p.length = 8 then 3 else 4 := by
  obtain ⟨hlen, _, _, _, hbr | hbr⟩ := parseTokens_inversion h
  · rw [hbr.2.2.2.2.2]
    simp only [List.length_map, List.length_take, List.length_drop]
    rcases eq_or_ne p.length 8 with h8 | h8
    · rw [if_pos ⟨hbr.1, h8⟩, h8]
      omega
    · rw [if_neg (by tauto)]
      omega
  · rw [hbr.2.2.2.2.2]
    simp only [List.length_map, List.length_take, List.length_drop]
    rw [if_neg (by tauto)]
    omega

/-- Membership inversion for the parser pipeline: every output record comes
from the tokens of some trimmed, `@ES`-prefixed piece of the split body. -/
theorem mem_parseEmailBodyWith {sep : List Char} {body : String} {r : MatrixItem}
    (h : r ∈ parseEmailBodyWith sep body) :
    ∃ piece ∈ splitOnCL sep body.data,
      symTag.isPrefixOf (trimCL piece) = true ∧
      parseTokens (jsSplitWsCL (trimCL piece)) = some r := by
  simp only [parseEmailBodyWith] at h
  split at h
  · exact absurd h (by simp)
  · rw [List.reduceOption_mem_iff] at h
    rcases List.mem_map.mp h with ⟨l, hl, hparse⟩
    rcases List.mem_filter.mp hl with ⟨hl2, hpref⟩
    rcases List.mem_map.mp hl2 with ⟨piece, hpiece, rfl⟩
    exact ⟨piece, hpiece, hpref, hparse⟩



/-! Claims C1, C2, C7, C10 about the parser. -/

/-- C1 counterexample: a sub-day line with exactly 8 tokens passes the
minimum-length check, takes the `Min` branch, and `p.slice(5, 9)` clamps to
the 3 available tokens — the record is kept with a levels sequence of
length 3, not 4. -/
theorem eight_token_min_line_three_levels :
    (parseEmailBody "@ES 5 Min 4,500.25 12 4490.00 4495.00 4510.00").map
      (fun r => r.levels.length) = [3] := by
  decide

/-- C1 (amended): a parsed record carries 4 levels unless its line took the
sub-day branch with exactly 8 tokens, in which case it carries 3; hence
every record of the parser has 3 or 4 levels, for every blob and delimiter. -/
theorem levels_length_characterization :
    (∀ p r, parseTokens p = some r →
        r.levels.length = if p.getD 2 [] = tagMin ∧ p.length = 8 then 3 else 4) ∧
    (∀ sep body r, r ∈ parseEmailBodyWith sep body →
        r.levels.length = 3 ∨ r.levels.length = 4) := by
  refine ⟨fun p r h => parseTokens_levels_length h, ?_⟩
  intro sep body r hmem
  rcases mem_parseEmailBodyWith hmem with ⟨piece, _, _, hp⟩
  rw [parseTokens_levels_length hp]
  split
  · left
    rfl
  · right
    rfl

/-- Witness for C1 (amended), on the 8-token sub-day line. -/
theorem levels_length_at_inputs :
    recMin8.levels.length =
      (if tokensMin8.getD 2 [] = tagMin ∧ tokensMin8.length = 8 then 3 else 4) ∧
    (recMin8.levels.length = 3 ∨ recMin8.levels.length = 4) :=
  ⟨levels_length_characterization.1 tokensMin8 recMin8 (by decide),
   levels_length_characterization.2 brTag
     "@ES 5 Min 4,500.25 12 4490.00 4495.00 4510.00" recMin8 (by decide)⟩

/-- C2 counterexample: the token `Infinity` parses to a non-finite price,
and only `isNaN` is checked — the record is returned with price `+∞`
instead of being dropped. -/
theorem infinity_price_not_dropped :
    (parseEmailBody "@ES Daily Infinity 12 1 2 3 4").map (fun r => r.price) =
      [JsNum.inf false] := by
  decide

/-- C2 (amended): a line whose price, count or any level parses to NaN is
dropped — no stored record has a NaN field, and the sample line with the
unparseable price `abc` yields zero records; Infinity, however, is not
filtered. -/
theorem nan_lines_dropped :
    (∀ sep body r, r ∈ parseEmailBodyWith sep body →
        r.price ≠ JsNum.nan ∧ r.count ≠ JsNum.nan ∧ ∀ x ∈ r.levels, x ≠ JsNum.nan) ∧
    parseEmailBody "@ES Daily abc 12 1 2 3 4" = [] := by
  constructor
  · intro sep body r hmem
    rcases mem_parseEmailBodyWith hmem with ⟨piece, _, _, hp⟩
    obtain ⟨_, h1, h2, h3, _⟩ := parseTokens_inversion hp
    exact ⟨h1, h2, h3⟩
  · decide

/-- Witness for C2 (amended), on the parsed Daily line. -/
theorem nan_lines_dropped_at_inputs :
    recDaily.price ≠ JsNum.nan ∧ recDaily.count ≠ JsNum.nan ∧
    ∀ x ∈ recDaily.levels, x ≠ JsNum.nan :=
  nan_lines_dropped.1 brTag "@ES Daily 4500.25 12 4490.00 4495.00 4510.00 4515.00"
    recDaily (by decide)

/-- C7: branch selection on the two sample lines — the third token `Min`
selects the sub-day offsets, otherwise the timeframe is the second token
alone; `mkRat 18001 4` is 4500.25. -/
theorem parser_branch_selection :
    parseEmailBody "@ES 5 Min 4,500.25 12 4490.00 4495.00 4510.00 4515.00" =
      [{ symbol := "@ES".data, timeframe := "5 Min".data,
         price := JsNum.num (mkRat 18001 4), count := JsNum.num 12,
         levels := [JsNum.num 4490, JsNum.num 4495, JsNum.num 4510, JsNum.num 4515] }] ∧
    parseEmailBody "@ES Daily 4500.25 12 4490.00 4495.00 4510.00 4515.00" =
      [recDaily] ∧
    JsNum.num (mkRat 18001 4) = JsNum.num (4500.25 : ℚ) := by
  refine ⟨by decide, by decide, ?_⟩
  norm_num [Rat.mkRat_eq_div]

/-- C10: a token that begins with a run of digits followed by anything that
cannot extend a decimal literal is not a parse failure: `parseFloat` returns
the value of the digit prefix.  In particular the count token `1,234`
(commas are not stripped for count) is stored as count 1 and the line is
kept. -/
theorem numeric_prefix_kept :
    (∀ ds rest : List Char, ds ≠ [] → (∀ c ∈ ds, c.isDigit = true) →
        (∀ c, rest.head? = some c → c.isDigit = false ∧ c ≠ '.' ∧ c ≠ 'e' ∧ c ≠ 'E') →
        parseFloatCL (ds ++ rest) = JsNum.num (mkRat (digitsToNat ds) 1)) ∧
    parseEmailBody "@ES Daily 4500.25 1,234 1 2 3 4" =
      [{ symbol := "@ES".data, timeframe := "Daily".data,
         price := JsNum.num (mkRat 18001 4), count := JsNum.num 1,
         levels := [JsNum.num 1, JsNum.num 2, JsNum.num 3, JsNum.num 4] }] := by
  constructor
  · intro ds rest hne hdig hrest
    obtain ⟨d0, ds', rfl⟩ := List.exists_cons_of_ne_nil hne
    have hd0 : d0.isDigit = true := hdig d0 (List.mem_cons_self d0 ds')
    have hnws : isWs d0 = false := digit_not_ws hd0
    obtain ⟨hm, hp, _, _, _, hI, _, _, _, _⟩ := digit_ne_chars hd0
    have hdig' : ∀ c ∈ ds', c.isDigit = true :=
      fun c hc => hdig c (List.mem_cons_of_mem _ hc)
    have hrtw : rest.takeWhile Char.isDigit = [] := by
      cases rest with
      | nil => rfl
      | cons c r => exact List.takeWhile_cons_of_neg (by simp [(hrest c rfl).1])
    have hrdw : rest.dropWhile Char.isDigit = rest := by
      cases rest with
      | nil => rfl
      | cons c r => exact List.dropWhile_cons_of_neg (by simp [(hrest c rfl).1])
    have htw : (d0 :: (ds' ++ rest)).takeWhile Char.isDigit = d0 :: ds' := by
      rw [List.takeWhile_cons_of_pos hd0, List.takeWhile_append_of_pos hdig', hrtw,
        List.append_nil]
    have hdw : (d0 :: (ds' ++ rest)).dropWhile Char.isDigit = rest := by
      rw [List.dropWhile_cons_of_pos hd0, List.dropWhile_append_of_pos hdig', hrdw]
    have hrh : ∀ x : Char, x = '.' ∨ x = 'e' ∨ x = 'E' → (rest.head? == some x) = false := by
      intro x hx
      cases rest with
      | nil => rfl
      | cons c r =>
        have hcd := hrest c rfl
        simp only [List.head?_cons, beq_eq_false_iff_ne, ne_eq, Option.some.injEq]
        rcases hx with rfl | rfl | rfl
        · exact hcd.2.1
        · exact hcd.2.2.1
        · exact hcd.2.2.2
    have hbm : (some d0 == some '-') = false := by simp [hm]
    have hbp : (some d0 == some '+') = false := by simp [hp]
    simp only [parseFloatCL, List.cons_append]
    rw [List.dropWhile_cons_of_neg (by simp [hnws])]
    have hinf : ¬ (List.take 8 (d0 :: (ds' ++ rest)) = infChars) := by
      simp [infChars, List.take_succ_cons, hI]
    simp only [List.head?_cons, hbm, hbp, Bool.or_false, Bool.false_eq_true, if_false,
      eq_false hinf]
    simp only [htw, hdw, hrh '.' (Or.inl rfl), hrh 'e' (Or.inr (Or.inl rfl)),
      hrh 'E' (Or.inr (Or.inr rfl)), Bool.or_false, Bool.false_eq_true, if_false]
    simp [digitsToNat]
  · decide

/-- Witness for C10: the count token `1,234` parses to 1, not NaN. -/
theorem numeric_prefix_kept_at_inputs :
    parseFloatCL (['1'] ++ [',', '2', '3', '4']) = JsNum.num (mkRat (digitsToNat ['1']) 1) :=
  numeric_prefix_kept.1 ['1'] [',', '2', '3', '4'] (by decide) (by decide) (by decide)

/-! ### Digit rendering: `natToChars`, `pad2`, `fixed2Digits` -/

theorem digitChar_spec {n : ℕ} (h : n < 10) :
    (Nat.digitChar n).isDigit = true ∧ (Nat.digitChar n).toNat - 48 = n := by
  interval_cases n <;> exact ⟨by decide, by decide⟩

theorem digitsToNat_append_digit (a : List Char) (c : Char) :
    digitsToNat (a ++ [c]) = 10 * digitsToNat a + (c.toNat - 48) := by
  simp [digitsToNat, List.foldl_append]

theorem natToCharsF_lt10 (f m : ℕ) (h : m < 10) :
    natToCharsF f m = [Nat.digitChar m] := by
  cases f <;> simp [natToCharsF, h]

theorem natToCharsF_spec : ∀ f n, n ≤ f →
    natToCharsF f n ≠ [] ∧ (∀ c ∈ natToCharsF f n, c.isDigit = true) ∧
    digitsToNat (natToCharsF f n) = n := by
  intro f
  induction f using Nat.strong_induction_on with
  | _ f ih =>
    intro n hn
    by_cases h10 : n < 10
    · rw [natToCharsF_lt10 f n h10]
      obtain ⟨hd, hv⟩ := digitChar_spec h10
      refine ⟨by simp, ?_, ?_⟩
      · intro c hc
        rw [List.mem_singleton] at hc
        subst hc
        exact hd
      · simpa [digitsToNat] using hv
    · obtain ⟨f', rfl⟩ : ∃ f', f = f' + 1 := ⟨f - 1, by omega⟩
      · simp only [natToCharsF, if_neg h10]
        have hdiv : n / 10 ≤ f' := by omega
        obtain ⟨hne, hdig, hval⟩ := ih f' (by omega) (n / 10) hdiv
        obtain ⟨hd, hv⟩ := digitChar_spec (Nat.mod_lt n (by omega) : n % 10 < 10)
        refine ⟨by simp, ?_, ?_⟩
        · intro c hc
          rcases List.mem_append.mp hc with hc | hc
          · exact hdig c hc
          · rw [List.mem_singleton] at hc
            subst hc
            exact hd
        · rw [digitsToNat_append_digit, hval, hv]
          omega

theorem natToChars_spec (n : ℕ) :
    natToChars n ≠ [] ∧ (∀ c ∈ natToChars n, c.isDigit = true) ∧
    digitsToNat (natToChars n) = n :=
  natToCharsF_spec n n (Nat.le_refl n)

theorem natToChars_two {r : ℕ} (h10 : 10 ≤ r) (h100 : r < 100) :
    natToChars r = [Nat.digitChar (r / 10), Nat.digitChar (r % 10)] := by
  obtain ⟨f, rfl⟩ : ∃ f, r = f + 1 := ⟨r - 1, by omega⟩
  show natToCharsF (f + 1) (f + 1) = _
  simp only [natToCharsF, if_neg (by omega : ¬ f + 1 < 10)]
  rw [natToCharsF_lt10 f ((f + 1) / 10) (by omega)]
  rfl

theorem pad2_spec {r : ℕ} (h : r < 100) :
    (pad2 r).length = 2 ∧ (∀ c ∈ pad2 r, c.isDigit = true) ∧
    digitsToNat (pad2 r) = r := by
  by_cases h10 : r < 10
  · obtain ⟨hd, hv⟩ := digitChar_spec h10
    simp only [pad2, if_pos h10, natToChars, natToCharsF_lt10 r r h10]
    refine ⟨rfl, ?_, ?_⟩
    · intro c hc
      rcases List.mem_cons.mp hc with rfl | hc
      · decide
      · rw [List.mem_singleton] at hc
        subst hc
        exact hd
    · simp only [digitsToNat, List.foldl_cons, List.foldl_nil]
      have h0 : ('0' : Char).toNat - 48 = 0 := by decide
      rw [h0]
      omega
  · obtain ⟨hd1, hv1⟩ := digitChar_spec (by omega : r / 10 < 10)
    obtain ⟨hd2, hv2⟩ := digitChar_spec (by omega : r % 10 < 10)
    simp only [pad2, if_neg h10, natToChars_two (by omega) h]
    refine ⟨rfl, ?_, ?_⟩
    · intro c hc
      rcases List.mem_cons.mp hc with rfl | hc
      · exact hd1
      · rw [List.mem_singleton] at hc
        subst hc
        exact hd2
    · simp only [digitsToNat, List.foldl_cons, List.foldl_nil]
      omega

/-! ### parseFloat on `toFixed(2)` renderings -/

theorem takeWhile_all {α : Type} {p : α → Bool} {l : List α} (h : ∀ c ∈ l, p c = true) :
    l.takeWhile p = l := by
  induction l with
  | nil => rfl
  | cons a t ih =>
    rw [List.takeWhile_cons_of_pos (h a (List.mem_cons_self _ _))]
    rw [ih (fun c hc => h c (List.mem_cons_of_mem _ hc))]

theorem dropWhile_all {α : Type} {p : α → Bool} {l : List α} (h : ∀ c ∈ l, p c = true) :
    l.dropWhile p = [] := by
  induction l with
  | nil => rfl
  | cons a t ih =>
    rw [List.dropWhile_cons_of_pos (h a (List.mem_cons_self _ _))]
    exact ih (fun c hc => h c (List.mem_cons_of_mem _ hc))

/-- `parseFloat` of an optional minus sign, a non-empty run of integer
digits, a dot, and a non-empty run of fraction digits reads the whole token
as the denoted decimal. -/
theorem parseFloat_fixed (neg : Bool) (ipd fpd : List Char)
    (hip : ipd ≠ []) (hipd : ∀ c ∈ ipd, c.isDigit = true)
    (hfpd : ∀ c ∈ fpd, c.isDigit = true) :
    parseFloatCL ((if neg then ['-'] else []) ++ ipd ++ '.' :: fpd) =
      JsNum.num (mkRat
        (if neg then -((digitsToNat ipd * 10 ^ fpd.length + digitsToNat fpd : ℕ) : ℤ)
         else ((digitsToNat ipd * 10 ^ fpd.length + digitsToNat fpd : ℕ) : ℤ))
        (10 ^ fpd.length)) := by
  obtain ⟨d0, ds', rfl⟩ := List.exists_cons_of_ne_nil hip
  have hd0 := hipd d0 (List.mem_cons_self _ _)
  have hnws : isWs d0 = false := digit_not_ws hd0
  obtain ⟨hm, hp, _, _, _, hI, _, _, _, _⟩ := digit_ne_chars hd0
  have hdig' : ∀ c ∈ ds', c.isDigit = true :=
    fun c hc => hipd c (List.mem_cons_of_mem _ hc)
  have htw : (d0 :: (ds' ++ '.' :: fpd)).takeWhile Char.isDigit = d0 :: ds' := by
    rw [List.takeWhile_cons_of_pos hd0, List.takeWhile_append_of_pos hdig',
      List.takeWhile_cons_of_neg (by decide), List.append_nil]
  have hdw : (d0 :: (ds' ++ '.' :: fpd)).dropWhile Char.isDigit = '.' :: fpd := by
    rw [List.dropWhile_cons_of_pos hd0, List.dropWhile_append_of_pos hdig',
      List.dropWhile_cons_of_neg (by decide)]
  have hfptw : fpd.takeWhile Char.isDigit = fpd := takeWhile_all hfpd
  have hfpdw : fpd.dropWhile Char.isDigit = [] := dropWhile_all hfpd
  have hbm : (some d0 == some '-') = false := by simp [hm]
  have hbp : (some d0 == some '+') = false := by simp [hp]
  have hinf : ¬ (List.take 8 (d0 :: (ds' ++ '.' :: fpd)) = infChars) := by
    simp [infChars, List.take_succ_cons, hI]
  cases neg
  · show parseFloatCL (d0 :: (ds' ++ '.' :: fpd)) = _
    simp only [parseFloatCL]
    rw [List.dropWhile_cons_of_neg (by simp [hnws])]
    simp only [List.head?_cons, hbm, hbp, Bool.or_false, Bool.false_eq_true, if_false,
      eq_false hinf, htw, hdw, beq_self_eq_true, if_true, List.tail_cons, hfptw, hfpdw]
    rw [if_neg (by simp)]
    simp
  · show parseFloatCL ('-' :: (d0 :: (ds' ++ '.' :: fpd))) = _
    simp only [parseFloatCL]
    rw [List.dropWhile_cons_of_neg (by decide)]
    simp only [List.head?_cons, beq_self_eq_true, Bool.true_or, if_true, List.tail_cons,
      eq_false hinf, htw, hdw, hfptw, hfpdw]
    rw [if_neg (by simp)]
    simp

theorem stripCommas_eq_self {t : List Char} (h : ∀ c ∈ t, c ≠ ',') :
    stripCommas t = t :=
  List.filter_eq_self.mpr (fun c hc => by simp [h c hc])

theorem halfUpScaled_nonneg {n : ℤ} (hn : 0 ≤ n) (d : ℕ) : 0 ≤ halfUpScaled n d :=
  Int.fdiv_nonneg (by omega) (by omega)

/-- `parseFloat` of the two-decimal rendering of the scaled natural `n`
(with an optional minus sign) denotes exactly `± n / 100`. -/
theorem parseFloat_fixed2Digits (neg : Bool) (n : ℕ) :
    parseFloatCL ((if neg then ['-'] else []) ++ fixed2Digits n) =
      JsNum.num (mkRat (if neg then -(n : ℤ) else (n : ℤ)) 100) := by
  obtain ⟨hne, hdig, hval⟩ := natToChars_spec (n / 100)
  obtain ⟨hlen2, hdig2, hval2⟩ := pad2_spec (Nat.mod_lt n (by omega) : n % 100 < 100)
  have hparse := parseFloat_fixed neg (natToChars (n / 100)) (pad2 (n % 100)) hne hdig hdig2
  have harith : digitsToNat (natToChars (n / 100)) * 10 ^ (pad2 (n % 100)).length +
      digitsToNat (pad2 (n % 100)) = n := by
    rw [hval, hval2, hlen2]
    omega
  rw [show fixed2Digits n = natToChars (n / 100) ++ '.' :: pad2 (n % 100) from rfl,
    ← List.append_assoc, hparse, harith, hlen2]
  norm_num

/-- Every character of `fixed2Digits` is a digit or a dot. -/
theorem fixed2Digits_chars (n : ℕ) :
    fixed2Digits n ≠ [] ∧ ∀ c ∈ fixed2Digits n, c.isDigit = true ∨ c = '.' := by
  obtain ⟨hne, hdig, _⟩ := natToChars_spec (n / 100)
  obtain ⟨_, hdig2, _⟩ := pad2_spec (Nat.mod_lt n (by omega) : n % 100 < 100)
  constructor
  · simp [fixed2Digits, hne]
  · intro c hc
    simp only [fixed2Digits, List.mem_append, List.mem_cons] at hc
    rcases hc with hc | rfl | hc
    · exact Or.inl (hdig c hc)
    · exact Or.inr rfl
    · exact Or.inl (hdig2 c hc)

/-- Every character of a `toFixed(2)` rendering is benign: not whitespace,
not a comma, not `<`. -/
theorem jsToFixed2_chars (x : JsNum) :
    jsToFixed2 x ≠ [] ∧ ∀ c ∈ jsToFixed2 x, isWs c = false ∧ c ≠ ',' ∧ c ≠ '<' := by
  have hfx : ∀ n : ℕ, ∀ c ∈ fixed2Digits n, isWs c = false ∧ c ≠ ',' ∧ c ≠ '<' := by
    intro n c hc
    rcases (fixed2Digits_chars n).2 c hc with hd | rfl
    · obtain ⟨_, _, _, _, _, _, _, hlt, hcm, _⟩ := digit_ne_chars hd
      exact ⟨digit_not_ws hd, hcm, hlt⟩
    · exact ⟨by decide, by decide, by decide⟩
  cases x with
  | nan => exact ⟨by decide, by decide⟩
  | inf b => cases b <;> exact ⟨by decide, by decide⟩
  | num q =>
    simp only [jsToFixed2, toFixed2CL]
    split
    · refine ⟨by simp, ?_⟩
      intro c hc
      rcases List.mem_cons.mp hc with rfl | hc
      · exact ⟨by decide, by decide, by decide⟩
      · exact hfx _ c hc
    · exact ⟨(fixed2Digits_chars _).1, hfx _⟩

/-- A `toFixed(2)` rendering is never the branch tag `Min`. -/
theorem jsToFixed2_ne_tagMin (x : JsNum) : jsToFixed2 x ≠ tagMin := by
  cases x with
  | nan => decide
  | inf b => cases b <;> decide
  | num q =>
    simp only [jsToFixed2, toFixed2CL]
    split
    · intro h
      rw [show tagMin = 'M' :: ['i', 'n'] from rfl] at h
      exact absurd (List.head_eq_of_cons_eq h) (by decide)
    · intro h
      obtain ⟨hne, hdig⟩ := fixed2Digits_chars (halfUpScaled q.num q.den).toNat
      obtain ⟨c0, t0, he⟩ := List.exists_cons_of_ne_nil hne
      rw [he, show tagMin = 'M' :: ['i', 'n'] from rfl] at h
      have hc0 : c0.isDigit = true ∨ c0 = '.' := by
        apply hdig
        rw [he]
        exact List.mem_cons_self _ _
      have := List.head_eq_of_cons_eq h
      subst this
      rcases hc0 with hd | hd
      · exact absurd hd (by decide)
      · exact absurd hd (by decide)

/-- Token-level round trip: parsing the `toFixed(2)` rendering of a non-NaN
value (with or without comma stripping) yields the value rounded to two
decimals. -/
theorem parse_jsToFixed2 {x : JsNum} (hx : x ≠ JsNum.nan) :
    parseFloatCL (jsToFixed2 x) = round2 x ∧ tokNumS (jsToFixed2 x) = round2 x := by
  have hchars := (jsToFixed2_chars x).2
  have hsc : stripCommas (jsToFixed2 x) = jsToFixed2 x :=
    stripCommas_eq_self (fun c hc => (hchars c hc).2.1)
  have hmain : parseFloatCL (jsToFixed2 x) = round2 x := by
    cases x with
    | nan => exact absurd rfl hx
    | inf b => cases b <;> decide
    | num q =>
      simp only [jsToFixed2, toFixed2CL, round2]
      split
      · next hq =>
        have h1 := parseFloat_fixed2Digits true (halfUpScaled (-q.num) q.den).toNat
        rw [show ('-' :: fixed2Digits (halfUpScaled (-q.num) q.den).toNat) =
            (if true then ['-'] else []) ++ fixed2Digits (halfUpScaled (-q.num) q.den).toNat
            from rfl, h1]
        rw [Int.toNat_of_nonneg (halfUpScaled_nonneg (by omega) q.den)]
        simp
      · next hq =>
        have h1 := parseFloat_fixed2Digits false (halfUpScaled q.num q.den).toNat
        rw [show fixed2Digits (halfUpScaled q.num q.den).toNat =
            (if false then ['-'] else []) ++ fixed2Digits (halfUpScaled q.num q.den).toNat
            from rfl, h1]
        rw [Int.toNat_of_nonneg (halfUpScaled_nonneg (by omega) q.den)]
        simp
  exact ⟨hmain, by simp only [tokNumS, hsc, hmain]⟩

/-! ### Tokenization of space-joined token lists -/

theorem wsTokensF_congr : ∀ f, ∀ g (s : List Char), s.length ≤ f → s.length ≤ g →
    wsTokensF f s = wsTokensF g s := by
  intro f
  induction f using Nat.strong_induction_on with
  | _ f ih =>
    intro g s h1 h2
    cases s with
    | nil => cases f <;> cases g <;> rfl
    | cons c rest =>
      simp only [List.length_cons] at h1 h2
      obtain ⟨f', rfl⟩ : ∃ f', f = f' + 1 := ⟨f - 1, by omega⟩
      obtain ⟨g', rfl⟩ : ∃ g', g = g' + 1 := ⟨g - 1, by omega⟩
      simp only [wsTokensF]
      by_cases hw : c.isWhitespace
      · simp only [if_pos hw]
        exact ih f' (by omega) g' rest (by omega) (by omega)
      · simp only [if_neg hw]
        have hd : (rest.dropWhile notWs).length ≤ rest.length :=
          (List.dropWhile_suffix notWs).length_le
        rw [ih f' (by omega) g' _ (by omega) (by omega)]

theorem wsTokens_single {a : List Char} (ha : a ≠ [])
    (hnw : ∀ c ∈ a, isWs c = false) : wsTokens a = [a] := by
  obtain ⟨c, a', rfl⟩ := List.exists_cons_of_ne_nil ha
  have hc : ¬ c.isWhitespace = true := by
    have h := hnw c (List.mem_cons_self _ _)
    simp only [isWs] at h
    simp [h]
  have hall : ∀ x ∈ a', notWs x = true := by
    intro x hx
    have h := hnw x (List.mem_cons_of_mem _ hx)
    simp only [isWs] at h
    simp [notWs, h]
  show wsTokensF (c :: a').length (c :: a') = [c :: a']
  simp only [List.length_cons, wsTokensF, if_neg hc]
  rw [takeWhile_all hall, dropWhile_all hall]
  simp [wsTokensF]

theorem wsTokens_append_space {a : List Char} (rest : List Char) (ha : a ≠ [])
    (hnw : ∀ c ∈ a, isWs c = false) :
    wsTokens (a ++ ' ' :: rest) = a :: wsTokens rest := by
  obtain ⟨c, a', rfl⟩ := List.exists_cons_of_ne_nil ha
  have hc : ¬ c.isWhitespace = true := by
    have h := hnw c (List.mem_cons_self _ _)
    simp only [isWs] at h
    simp [h]
  have hall : ∀ x ∈ a', notWs x = true := by
    intro x hx
    have h := hnw x (List.mem_cons_of_mem _ hx)
    simp only [isWs] at h
    simp [notWs, h]
  show wsTokensF ((c :: a') ++ ' ' :: rest).length ((c :: a') ++ ' ' :: rest) = _
  simp only [List.cons_append, List.length_cons, wsTokensF, if_neg hc, List.append_eq]
  rw [List.takeWhile_append_of_pos hall, List.takeWhile_cons_of_neg (by decide),
    List.append_nil, List.dropWhile_append_of_pos hall,
    List.dropWhile_cons_of_neg (by decide)]
  congr 1
  have hlen : (' ' :: rest).length ≤ (a' ++ ' ' :: rest).length := by
    simp only [List.length_append, List.length_cons]
    omega
  rw [wsTokensF_congr _ (' ' :: rest).length _ hlen (Nat.le_refl _)]
  show wsTokensF (rest.length + 1) (' ' :: rest) = wsTokens rest
  simp only [wsTokensF, if_pos (by decide : (' ' : Char).isWhitespace = true)]
  rfl

theorem intercalate_cons {ts : List (List Char)} (a : List Char) (h : ts ≠ []) :
    List.intercalate [' '] (a :: ts) = a ++ ' ' :: List.intercalate [' '] ts := by
  obtain ⟨b, ts', rfl⟩ := List.exists_cons_of_ne_nil h
  simp only [List.intercalate, List.intersperse_cons_cons, List.flatten_cons]
  rfl

theorem intercalate_singleton (a : List Char) : List.intercalate [' '] [a] = a := by
  simp [List.intercalate]

theorem intercalate_single_any (sep a : List Char) : List.intercalate sep [a] = a := by
  simp [List.intercalate]

theorem wsTokens_intercalate : ∀ ts : List (List Char),
    (∀ t ∈ ts, t ≠ [] ∧ ∀ c ∈ t, isWs c = false) → ts ≠ [] →
    wsTokens (List.intercalate [' '] ts) = ts := by
  intro ts
  induction ts with
  | nil => intro _ h; exact absurd rfl h
  | cons a ts' ih =>
    intro h _
    obtain ⟨ha, hnw⟩ := h a (List.mem_cons_self _ _)
    cases ts' with
    | nil =>
      rw [intercalate_singleton]
      exact wsTokens_single ha hnw
    | cons b ts'' =>
      rw [intercalate_cons a (by simp), wsTokens_append_space _ ha hnw,
        ih (fun t ht => h t (List.mem_cons_of_mem _ ht)) (by simp)]

theorem intercalate_ne_nil {ts : List (List Char)} (h : ∀ t ∈ ts, t ≠ [])
    (hts : ts ≠ []) : List.intercalate [' '] ts ≠ [] := by
  obtain ⟨a, ts', rfl⟩ := List.exists_cons_of_ne_nil hts
  have ha := h a (List.mem_cons_self _ _)
  cases ts' with
  | nil =>
    rw [intercalate_singleton]
    exact ha
  | cons b ts'' =>
    rw [intercalate_cons a (by simp)]
    simp [ha]

theorem headD_intercalate_not_ws {ts : List (List Char)}
    (h : ∀ t ∈ ts, t ≠ [] ∧ ∀ c ∈ t, isWs c = false) (hts : ts ≠ []) :
    isWs ((List.intercalate [' '] ts).headD ' ') = false := by
  obtain ⟨a, ts', rfl⟩ := List.exists_cons_of_ne_nil hts
  obtain ⟨ha, hnw⟩ := h a (List.mem_cons_self _ _)
  obtain ⟨c, a', rfl⟩ := List.exists_cons_of_ne_nil ha
  have hc := hnw c (List.mem_cons_self _ _)
  cases ts' with
  | nil =>
    rw [intercalate_singleton]
    exact hc
  | cons b ts'' =>
    rw [intercalate_cons _ (by simp)]
    exact hc

theorem getLastD_intercalate_not_ws : ∀ ts : List (List Char),
    (∀ t ∈ ts, t ≠ [] ∧ ∀ c ∈ t, isWs c = false) → ts ≠ [] →
    isWs ((List.intercalate [' '] ts).getLastD ' ') = false := by
  intro ts
  induction ts with
  | nil => intro _ h; exact absurd rfl h
  | cons a ts' ih =>
    intro h _
    obtain ⟨ha, hnw⟩ := h a (List.mem_cons_self _ _)
    cases ts' with
    | nil =>
      rw [intercalate_singleton, List.getLastD_eq_getLast?, List.getLast?_eq_getLast a ha]
      exact hnw _ (List.getLast_mem ha)
    | cons b ts'' =>
      have hx : List.intercalate [' '] (b :: ts'') ≠ [] :=
        intercalate_ne_nil (fun t ht => (h t (List.mem_cons_of_mem _ ht)).1) (by simp)
      rw [intercalate_cons a (by simp), List.getLastD_eq_getLast?, List.getLast?_append]
      have h2 : (' ' :: List.intercalate [' '] (b :: ts'')).getLast? =
          (List.intercalate [' '] (b :: ts'')).getLast? := by
        rw [show (' ' :: List.intercalate [' '] (b :: ts'')) =
            [' '] ++ List.intercalate [' '] (b :: ts'') from rfl, List.getLast?_append]
        rw [List.getLast?_eq_getLast _ hx]
        rfl
      rw [h2, List.getLast?_eq_getLast _ hx]
      have := ih (fun t ht => h t (List.mem_cons_of_mem _ ht)) (by simp)
      rw [List.getLastD_eq_getLast?, List.getLast?_eq_getLast _ hx] at this
      exact this

/-- `split(/\s+/)` of a single-space join of non-empty whitespace-free
tokens recovers exactly those tokens. -/
theorem jsSplitWs_intercalate {ts : List (List Char)}
    (h : ∀ t ∈ ts, t ≠ [] ∧ ∀ c ∈ t, isWs c = false) (hts : ts ≠ []) :
    jsSplitWsCL (List.intercalate [' '] ts) = ts := by
  have hne : List.intercalate [' '] ts ≠ [] :=
    intercalate_ne_nil (fun t ht => (h t ht).1) hts
  rw [jsSplitWsCL, if_neg hne]
  simp only [headD_intercalate_not_ws h hts, getLastD_intercalate_not_ws ts h hts,
    Bool.false_eq_true, if_false, List.nil_append, List.append_nil]
  exact wsTokens_intercalate ts h hts

/-! ### Trim is the identity on trimmed-shape strings -/

theorem headD_dropWhile_not {α : Type} {p : α → Bool} :
    ∀ (l : List α) (d : α), l.dropWhile p ≠ [] →
      p ((l.dropWhile p).headD d) = false := by
  intro l d h
  induction l with
  | nil => simp at h
  | cons c t ih =>
    by_cases hc : p c = true
    · rw [List.dropWhile_cons_of_pos hc] at h ⊢
      exact ih h
    · rw [List.dropWhile_cons_of_neg hc]
      simpa using hc

theorem trimCL_eq_self {s : List Char} (hs : s ≠ [])
    (h1 : isWs (s.headD ' ') = false) (h2 : isWs (s.getLastD ' ') = false) :
    trimCL s = s := by
  obtain ⟨c, s', rfl⟩ := List.exists_cons_of_ne_nil hs
  have hd : (c :: s').dropWhile isWs = c :: s' :=
    List.dropWhile_cons_of_neg (by simpa using h1)
  rw [trimCL, hd]
  have hrne : (c :: s').reverse ≠ [] := by simp
  obtain ⟨c2, r', hr⟩ := List.exists_cons_of_ne_nil hrne
  have hc2 : isWs c2 = false := by
    have hhr := List.head?_reverse (c :: s')
    rw [hr] at hhr
    rw [List.getLastD_eq_getLast?, ← hhr] at h2
    simpa using h2
  rw [hr, List.dropWhile_cons_of_neg (by simp [hc2]), ← hr, List.reverse_reverse]

/-! ### The `<br/>` splitter: pieces never contain the delimiter -/

theorem splitOnAuxF_ne_nil (sep : List Char) : ∀ f s, splitOnAuxF sep f s ≠ [] := by
  intro f s
  match f, s with
  | _, [] => simp [splitOnAuxF]
  | 0, c :: rest => simp [splitOnAuxF]
  | f + 1, c :: rest =>
    simp only [splitOnAuxF]
    split
    · simp
    · split <;> simp

theorem splitOnAuxF_spec (sep : List Char) (hsep : sep ≠ []) :
    ∀ f s, s.length ≤ f →
      (∀ piece ∈ splitOnAuxF sep f s, ¬ sep <:+: piece) ∧
      (∀ q qs, splitOnAuxF sep f s = q :: qs → q <+: s) := by
  intro f
  induction f using Nat.strong_induction_on with
  | _ f ih =>
    intro s hlen
    cases s with
    | nil =>
      have he : splitOnAuxF sep f [] = [[]] := by cases f <;> rfl
      constructor
      · intro piece hp
        rw [he, List.mem_singleton] at hp
        subst hp
        intro hinf
        exact hsep (List.infix_nil.mp hinf)
      · intro q qs heq
        rw [he, List.cons.injEq] at heq
        obtain ⟨rfl, _⟩ := heq
        exact List.nil_prefix
    | cons c rest =>
      simp only [List.length_cons] at hlen
      obtain ⟨f', rfl⟩ : ∃ f', f = f' + 1 := ⟨f - 1, by omega⟩
      simp only [splitOnAuxF]
      by_cases hpre : sep.isPrefixOf (c :: rest) = true
      · rw [if_pos hpre]
        have hrec := ih f' (by omega) (rest.drop (sep.length - 1)) (by
          have hd : (rest.drop (sep.length - 1)).length = rest.length - (sep.length - 1) :=
            List.length_drop _ _
          omega)
        constructor
        · intro piece hp
          rcases List.mem_cons.mp hp with rfl | hp
          · intro hinf
            exact hsep (List.infix_nil.mp hinf)
          · exact hrec.1 piece hp
        · intro q qs heq
          rw [List.cons.injEq] at heq
          obtain ⟨rfl, _⟩ := heq
          exact List.nil_prefix
      · rw [if_neg hpre]
        have hrec := ih f' (by omega) rest (by omega)
        rcases hsplit : splitOnAuxF sep f' rest with _ | ⟨piece, ps⟩
        · exact absurd hsplit (splitOnAuxF_ne_nil sep f' rest)
        · have hqp : piece <+: rest := hrec.2 piece ps hsplit
          constructor
          · intro pc hpc
            rcases List.mem_cons.mp hpc with rfl | hpc
            · intro hinf
              rcases List.infix_cons_iff.mp hinf with hpref | hinf2
              · have hca : (c :: piece) <+: (c :: rest) :=
                  List.cons_prefix_cons.mpr ⟨rfl, hqp⟩
                have hsp : sep <+: (c :: rest) := hpref.trans hca
                rw [← List.isPrefixOf_iff_prefix] at hsp
                exact hpre hsp
              · exact hrec.1 piece (by rw [hsplit]; exact List.mem_cons_self _ _) hinf2
            · exact hrec.1 pc (by rw [hsplit]; exact List.mem_cons_of_mem _ hpc)
          · intro q qs heq
            rw [List.cons.injEq] at heq
            obtain ⟨rfl, _⟩ := heq
            exact List.cons_prefix_cons.mpr ⟨rfl, hqp⟩

theorem splitOnAuxF_sep_free (sep : List Char) (_hsep : sep ≠ []) :
    ∀ f s, s.length ≤ f → ¬ sep <:+: s → splitOnAuxF sep f s = [s] := by
  intro f
  induction f using Nat.strong_induction_on with
  | _ f ih =>
    intro s hlen hinf
    cases s with
    | nil => cases f <;> rfl
    | cons c rest =>
      simp only [List.length_cons] at hlen
      obtain ⟨f', rfl⟩ : ∃ f', f = f' + 1 := ⟨f - 1, by omega⟩
      simp only [splitOnAuxF]
      rw [if_neg (by
        intro hb
        rw [List.isPrefixOf_iff_prefix] at hb
        exact hinf hb.isInfix)]
      rw [ih f' (by omega) rest (by omega) (fun h2 => hinf (List.infix_cons h2))]

/-- Splitting a string that does not contain the delimiter yields just that
string. -/
theorem splitOnCL_sep_free {sep s : List Char} (hsep : sep ≠ [])
    (h : ¬ sep <:+: s) : splitOnCL sep s = [s] := by
  rw [splitOnCL, if_neg hsep]
  exact splitOnAuxF_sep_free sep hsep s.length s (Nat.le_refl _) h

/-- No piece of a split contains the delimiter. -/
theorem splitOnCL_pieces {sep : List Char} (hsep : sep ≠ []) (s : List Char) :
    ∀ piece ∈ splitOnCL sep s, ¬ sep <:+: piece := by
  intro piece hp
  rw [splitOnCL, if_neg hsep] at hp
  exact (splitOnAuxF_spec sep hsep s.length s (Nat.le_refl _)).1 piece hp

/-! ### Infix distribution over space-joins -/

theorem infix_append_space {sep b : List Char} (hs : ' ' ∉ sep) :
    ∀ a : List Char, sep <:+: (a ++ ' ' :: b) → sep <:+: a ∨ sep <:+: b := by
  intro a
  induction a with
  | nil =>
    intro h
    simp only [List.nil_append] at h
    rcases List.infix_cons_iff.mp h with hpref | hinf
    · cases sep with
      | nil => exact Or.inl List.nil_infix
      | cons c s' =>
        rcases List.cons_prefix_cons.mp hpref with ⟨rfl, _⟩
        exact absurd (List.mem_cons_self _ _) hs
    · exact Or.inr hinf
  | cons c a' ih =>
    intro h
    simp only [List.cons_append] at h
    rcases List.infix_cons_iff.mp h with hpref | hinf
    · by_cases hlen : sep.length ≤ (c :: a').length
      · left
        have hca : (c :: a') <+: (c :: (a' ++ ' ' :: b)) :=
          List.cons_prefix_cons.mpr ⟨rfl, List.prefix_append _ _⟩
        exact (List.prefix_of_prefix_length_le hpref hca hlen).isInfix
      · exfalso
        push_neg at hlen
        have hidx : (c :: a').length < sep.length := hlen
        have hbound : (c :: a').length < (c :: (a' ++ ' ' :: b)).length := by
          simp only [List.length_cons, List.length_append]
          omega
        have h3 := hpref.getElem hidx
        have h4 : (c :: (a' ++ ' ' :: b))[(c :: a').length] = ' ' := by
          simp only [List.length_cons, List.getElem_cons_succ]
          rw [List.getElem_append_right (by omega)]
          simp
        apply hs
        rw [← h4, ← h3]
        exact List.getElem_mem _
    · rcases ih hinf with h' | h'
      · exact Or.inl (List.infix_cons h')
      · exact Or.inr h'

theorem not_infix_intercalate {sep : List Char} (hs : ' ' ∉ sep) (hsep : sep ≠ []) :
    ∀ ts : List (List Char), (∀ t ∈ ts, ¬ sep <:+: t) →
      ¬ sep <:+: List.intercalate [' '] ts := by
  intro ts
  induction ts with
  | nil =>
    intro _ h
    rw [show List.intercalate [' '] ([] : List (List Char)) = [] from rfl] at h
    exact hsep (List.infix_nil.mp h)
  | cons a ts' ih =>
    intro h hinf
    cases ts' with
    | nil =>
      rw [intercalate_singleton] at hinf
      exact h a (List.mem_cons_self _ _) hinf
    | cons b ts'' =>
      rw [intercalate_cons a (by simp)] at hinf
      rcases infix_append_space hs a hinf with h' | h'
      · exact h a (List.mem_cons_self _ _) h'
      · exact ih (fun t ht => h t (List.mem_cons_of_mem _ ht)) h'

/-! ### Shape of the tokens feeding `parseTokens` -/

theorem wsTokensF_facts : ∀ f (s : List Char), s.length ≤ f → ∀ t ∈ wsTokensF f s,
    t ≠ [] ∧ (∀ c ∈ t, isWs c = false) ∧ t <:+: s := by
  intro f
  induction f using Nat.strong_induction_on with
  | _ f ih =>
    intro s hlen t ht
    cases s with
    | nil => cases f <;> simp [wsTokensF] at ht
    | cons c rest =>
      simp only [List.length_cons] at hlen
      obtain ⟨f', rfl⟩ : ∃ f', f = f' + 1 := ⟨f - 1, by omega⟩
      simp only [wsTokensF] at ht
      by_cases hw : c.isWhitespace = true
      · rw [if_pos hw] at ht
        obtain ⟨h1, h2, h3⟩ := ih f' (by omega) rest (by omega) t ht
        exact ⟨h1, h2, List.infix_cons h3⟩
      · rw [if_neg hw] at ht
        rcases List.mem_cons.mp ht with rfl | ht2
        · refine ⟨by simp, ?_, ?_⟩
          · intro x hx
            rcases List.mem_cons.mp hx with rfl | hx
            · simpa [isWs] using hw
            · have hx2 := List.mem_takeWhile_imp hx
              simp only [notWs, Bool.not_eq_true'] at hx2
              simpa [isWs] using hx2
          · exact (List.cons_prefix_cons.mpr ⟨rfl, List.takeWhile_prefix _⟩).isInfix
        · have hd : (rest.dropWhile notWs).length ≤ f' :=
            Nat.le_trans (List.dropWhile_suffix notWs).length_le (by omega)
          obtain ⟨h1, h2, h3⟩ := ih f' (by omega) _ hd t ht2
          exact ⟨h1, h2, List.infix_cons (h3.trans (List.dropWhile_suffix notWs).isInfix)⟩

theorem trimCL_infix_self (s : List Char) : trimCL s <:+: s := by
  rw [trimCL]
  have h1 : s.dropWhile isWs <:+ s := List.dropWhile_suffix isWs
  have h2 : (s.dropWhile isWs).reverse.dropWhile isWs <:+ (s.dropWhile isWs).reverse :=
    List.dropWhile_suffix isWs
  have h3 : ((s.dropWhile isWs).reverse.dropWhile isWs).reverse <+: s.dropWhile isWs := by
    apply List.reverse_suffix.mp
    rwa [List.reverse_reverse]
  exact h3.isInfix.trans h1.isInfix

theorem trimCL_getLastD_not_ws {s : List Char} (h : trimCL s ≠ []) :
    isWs ((trimCL s).getLastD ' ') = false := by
  rw [trimCL] at h ⊢
  have hY : ((s.dropWhile isWs).reverse.dropWhile isWs) ≠ [] := by
    intro h0
    rw [h0] at h
    exact h rfl
  rw [List.getLastD_eq_getLast?, List.getLast?_reverse, ← List.headD_eq_head?_getD]
  exact headD_dropWhile_not _ ' ' hY

theorem getD_mem_of_lt {p : List (List Char)} {i : ℕ} (h : i < p.length) :
    p.getD i [] ∈ p := by
  rw [List.getD_eq_getElem?_getD, List.getElem?_eq_getElem h]
  exact List.getElem_mem h

/-- Shape of any record produced by `parseEmailBody`: the symbol is a
non-empty whitespace-free `@ES`-prefixed token without the delimiter inside;
the numeric fields are not NaN; and the timeframe is either a plain token
with exactly 4 levels (other branch) or `token ++ " Min"` with 3 or 4 levels
(sub-day branch). -/
theorem record_shape {body : String} {r : MatrixItem} (h : r ∈ parseEmailBody body) :
    (r.symbol ≠ [] ∧ (∀ c ∈ r.symbol, isWs c = false) ∧ symTag <+: r.symbol ∧
      ¬ brTag <:+: r.symbol) ∧
    (r.price ≠ JsNum.nan ∧ r.count ≠ JsNum.nan ∧ ∀ x ∈ r.levels, x ≠ JsNum.nan) ∧
    ((r.timeframe ≠ [] ∧ (∀ c ∈ r.timeframe, isWs c = false) ∧ ¬ brTag <:+: r.timeframe ∧
        r.levels.length = 4) ∨
      (∃ t, t ≠ [] ∧ (∀ c ∈ t, isWs c = false) ∧ ¬ brTag <:+: t ∧
        r.timeframe = t ++ ' ' :: tagMin ∧ (r.levels.length = 3 ∨ r.levels.length = 4))) := by
  obtain ⟨piece, hpiece, hpref, hparse⟩ := mem_parseEmailBodyWith h
  have hbr : ¬ brTag <:+: piece := splitOnCL_pieces (by decide) body.data piece hpiece
  have hprefP : symTag <+: trimCL piece := List.isPrefixOf_iff_prefix.mp hpref
  obtain ⟨rest0, hrest0⟩ := hprefP
  have htne : trimCL piece ≠ [] := by
    rw [← hrest0]
    simp [symTag]
  have hhead : isWs ((trimCL piece).headD ' ') = false := by
    rw [← hrest0]
    show isWs '@' = false
    decide
  have hlast := trimCL_getLastD_not_ws htne
  have hsplit : jsSplitWsCL (trimCL piece) = wsTokens (trimCL piece) := by
    rw [jsSplitWsCL, if_neg htne]
    simp only [hhead, hlast, Bool.false_eq_true, if_false, List.nil_append, List.append_nil]
  rw [hsplit] at hparse
  have htok : ∀ t ∈ wsTokens (trimCL piece),
      t ≠ [] ∧ (∀ c ∈ t, isWs c = false) ∧ t <:+: trimCL piece :=
    wsTokensF_facts (trimCL piece).length _ (Nat.le_refl _)
  have htokbr : ∀ t ∈ wsTokens (trimCL piece), ¬ brTag <:+: t := by
    intro t ht hinf
    exact hbr (hinf.trans ((htok t ht).2.2.trans (trimCL_infix_self piece)))
  obtain ⟨hlen8, hpn, hcn, hln, hbranch⟩ := parseTokens_inversion hparse
  have h0 : (wsTokens (trimCL piece)).getD 0 [] ∈ wsTokens (trimCL piece) :=
    getD_mem_of_lt (by omega)
  have h1 : (wsTokens (trimCL piece)).getD 1 [] ∈ wsTokens (trimCL piece) :=
    getD_mem_of_lt (by omega)
  have hsym0 : symTag <+: (wsTokens (trimCL piece)).getD 0 [] := by
    have he : (wsTokens (trimCL piece)).getD 0 [] =
        '@' :: ('E' :: ('S' :: (rest0.takeWhile notWs))) := by
      rw [← hrest0]
      show (wsTokens ('@' :: ('E' :: ('S' :: rest0)))).getD 0 [] = _
      rw [wsTokens]
      simp only [List.length_cons, wsTokensF,
        if_neg (by decide : ¬ ('@' : Char).isWhitespace = true)]
      rw [List.takeWhile_cons_of_pos (by decide), List.takeWhile_cons_of_pos (by decide)]
      rfl
    rw [he]
    exact List.cons_prefix_cons.mpr ⟨rfl, List.cons_prefix_cons.mpr ⟨rfl,
      List.cons_prefix_cons.mpr ⟨rfl, List.nil_prefix⟩⟩⟩
  have hlevlen := parseTokens_levels_length hparse
  rcases hbranch with ⟨hm, hsym, htf, _, _, _⟩ | ⟨hm, hsym, htf, _, _, _⟩
  · obtain ⟨ht0ne, ht0ws, _⟩ := htok _ h0
    obtain ⟨ht1ne, ht1ws, _⟩ := htok _ h1
    refine ⟨⟨hsym ▸ ht0ne, hsym ▸ ht0ws, hsym ▸ hsym0, hsym ▸ htokbr _ h0⟩,
      ⟨hpn, hcn, hln⟩, Or.inr ⟨(wsTokens (trimCL piece)).getD 1 [], ht1ne, ht1ws,
        htokbr _ h1, ?_, ?_⟩⟩
    · rw [htf, hm]
    · rw [hlevlen]
      split
      · exact Or.inl rfl
      · exact Or.inr rfl
  · obtain ⟨ht0ne, ht0ws, _⟩ := htok _ h0
    obtain ⟨ht1ne, ht1ws, _⟩ := htok _ h1
    refine ⟨⟨hsym ▸ ht0ne, hsym ▸ ht0ws, hsym ▸ hsym0, hsym ▸ htokbr _ h0⟩,
      ⟨hpn, hcn, hln⟩, Or.inl ⟨htf ▸ ht1ne, htf ▸ ht1ws, htf ▸ htokbr _ h1, ?_⟩⟩
    rw [hlevlen, if_neg (by tauto)]

/-! ### Re-parsing the formatted token list -/

theorem round2_not_nan {x : JsNum} (h : x ≠ JsNum.nan) : jsIsNaN (round2 x) = false := by
  cases x
  · exact absurd rfl h
  · rfl
  · rfl

theorem map_tokNumS_levels {ls : List JsNum} (h : ∀ x ∈ ls, x ≠ JsNum.nan) :
    (ls.map jsToFixed2).map tokNumS = ls.map round2 := by
  rw [List.map_map]
  apply List.map_congr_left
  intro x hx
  exact (parse_jsToFixed2 (h x hx)).2

/-- Re-parsing the tokens of a formatted record from the other (non-sub-day)
branch yields the record rounded to two decimals. -/
theorem parseTokens_format_daily {r : MatrixItem}
    (hpn : r.price ≠ JsNum.nan) (hcn : r.count ≠ JsNum.nan)
    (hln : ∀ x ∈ r.levels, x ≠ JsNum.nan) (hlev : r.levels.length = 4) :
    parseTokens (r.symbol :: r.timeframe :: jsToFixed2 r.price :: jsToFixed2 r.count ::
      r.levels.map jsToFixed2) = some (roundRec r) := by
  have hts : (r.symbol :: r.timeframe :: jsToFixed2 r.price :: jsToFixed2 r.count ::
      r.levels.map jsToFixed2).length = 8 := by
    simp [hlev]
  have e2 : (r.symbol :: r.timeframe :: jsToFixed2 r.price :: jsToFixed2 r.count ::
      r.levels.map jsToFixed2).getD 2 [] = jsToFixed2 r.price := rfl
  have e3 : (r.symbol :: r.timeframe :: jsToFixed2 r.price :: jsToFixed2 r.count ::
      r.levels.map jsToFixed2).getD 3 [] = jsToFixed2 r.count := rfl
  have edrop : (r.symbol :: r.timeframe :: jsToFixed2 r.price :: jsToFixed2 r.count ::
      r.levels.map jsToFixed2).drop 4 = r.levels.map jsToFixed2 := rfl
  simp only [parseTokens, hts, e2, e3, edrop]
  rw [if_neg (by omega), if_neg (jsToFixed2_ne_tagMin r.price)]
  have etake : (r.levels.map jsToFixed2).take 4 = r.levels.map jsToFixed2 :=
    List.take_of_length_le (by simp [hlev])
  rw [etake, map_tokNumS_levels hln]
  have hfilter : (jsIsNaN (tokNumS (jsToFixed2 r.price)) ||
      jsIsNaN (parseFloatCL (jsToFixed2 r.count)) ||
      (r.levels.map round2).any jsIsNaN) = false := by
    rw [(parse_jsToFixed2 hpn).2, (parse_jsToFixed2 hcn).1]
    simp only [round2_not_nan hpn, round2_not_nan hcn, Bool.false_or]
    rw [List.any_eq_false]
    intro x hx
    rcases List.mem_map.mp hx with ⟨y, hy, rfl⟩
    simp [round2_not_nan (hln y hy)]
  rw [hfilter]
  simp only [Bool.false_eq_true, if_false]
  rw [(parse_jsToFixed2 hpn).2, (parse_jsToFixed2 hcn).1]
  rfl

/-- Re-parsing the tokens of a formatted record from the sub-day branch
yields the record rounded to two decimals. -/
theorem parseTokens_format_min {r : MatrixItem} {t : List Char}
    (hpn : r.price ≠ JsNum.nan) (hcn : r.count ≠ JsNum.nan)
    (hln : ∀ x ∈ r.levels, x ≠ JsNum.nan)
    (hlev : r.levels.length = 3 ∨ r.levels.length = 4)
    (htf : r.timeframe = t ++ ' ' :: tagMin) :
    parseTokens (r.symbol :: t :: tagMin :: jsToFixed2 r.price :: jsToFixed2 r.count ::
      r.levels.map jsToFixed2) = some (roundRec r) := by
  have hts : (r.symbol :: t :: tagMin :: jsToFixed2 r.price :: jsToFixed2 r.count ::
      r.levels.map jsToFixed2).length = 5 + r.levels.length := by
    simp only [List.length_cons, List.length_map]
    omega
  have e0 : (r.symbol :: t :: tagMin :: jsToFixed2 r.price :: jsToFixed2 r.count ::
      r.levels.map jsToFixed2).getD 0 [] = r.symbol := rfl
  have e1 : (r.symbol :: t :: tagMin :: jsToFixed2 r.price :: jsToFixed2 r.count ::
      r.levels.map jsToFixed2).getD 1 [] = t := rfl
  have e2 : (r.symbol :: t :: tagMin :: jsToFixed2 r.price :: jsToFixed2 r.count ::
      r.levels.map jsToFixed2).getD 2 [] = tagMin := rfl
  have e3 : (r.symbol :: t :: tagMin :: jsToFixed2 r.price :: jsToFixed2 r.count ::
      r.levels.map jsToFixed2).getD 3 [] = jsToFixed2 r.price := rfl
  have e4 : (r.symbol :: t :: tagMin :: jsToFixed2 r.price :: jsToFixed2 r.count ::
      r.levels.map jsToFixed2).getD 4 [] = jsToFixed2 r.count := rfl
  have edrop : (r.symbol :: t :: tagMin :: jsToFixed2 r.price :: jsToFixed2 r.count ::
      r.levels.map jsToFixed2).drop 5 = r.levels.map jsToFixed2 := rfl
  simp only [parseTokens, hts, e2, e3, e4, edrop]
  rw [if_neg (by omega)]
  simp only [if_true]
  have etake : (r.levels.map jsToFixed2).take 4 = r.levels.map jsToFixed2 :=
    List.take_of_length_le (by simp; omega)
  rw [etake, map_tokNumS_levels hln]
  have hfilter : (jsIsNaN (tokNumS (jsToFixed2 r.price)) ||
      jsIsNaN (parseFloatCL (jsToFixed2 r.count)) ||
      (r.levels.map round2).any jsIsNaN) = false := by
    rw [(parse_jsToFixed2 hpn).2, (parse_jsToFixed2 hcn).1]
    simp only [round2_not_nan hpn, round2_not_nan hcn, Bool.false_or]
    rw [List.any_eq_false]
    intro x hx
    rcases List.mem_map.mp hx with ⟨y, hy, rfl⟩
    simp [round2_not_nan (hln y hy)]
  rw [hfilter]
  simp only [Bool.false_eq_true, if_false]
  rw [(parse_jsToFixed2 hpn).2, (parse_jsToFixed2 hcn).1]
  simp only [e0, e1, roundRec, htf]

theorem jsToFixed2_no_brTag (x : JsNum) : ¬ brTag <:+: jsToFixed2 x := by
  intro hinf
  have hm : '<' ∈ jsToFixed2 x := hinf.subset (by decide)
  exact ((jsToFixed2_chars x).2 '<' hm).2.2 rfl

theorem tagMin_no_brTag : ¬ brTag <:+: tagMin := by
  intro hinf
  exact absurd hinf.length_le (by decide)

/-- Given good tokens, the full per-line pipeline on their space-join
produces exactly the result of `parseTokens` on the tokens. -/
theorem pipeline_on_join {ts : List (List Char)} {out : MatrixItem}
    (hfacts : ∀ tk ∈ ts, tk ≠ [] ∧ ∀ c ∈ tk, isWs c = false)
    (hbrfree : ∀ tk ∈ ts, ¬ brTag <:+: tk) (htsne : ts ≠ [])
    (hpref : symTag.isPrefixOf (List.intercalate [' '] ts) = true)
    (hparse : parseTokens ts = some out) :
    parseEmailBody (String.mk (List.intercalate [' '] ts)) = [out] := by
  have hlnne : List.intercalate [' '] ts ≠ [] :=
    intercalate_ne_nil (fun t ht => (hfacts t ht).1) htsne
  have hnotinf : ¬ brTag <:+: List.intercalate [' '] ts :=
    not_infix_intercalate (by decide) (by decide) ts hbrfree
  have htrim : trimCL (List.intercalate [' '] ts) = List.intercalate [' '] ts :=
    trimCL_eq_self hlnne (headD_intercalate_not_ws hfacts htsne)
      (getLastD_intercalate_not_ws ts hfacts htsne)
  have htoks : jsSplitWsCL (List.intercalate [' '] ts) = ts :=
    jsSplitWs_intercalate hfacts htsne
  show parseEmailBodyWith brTag (String.mk (List.intercalate [' '] ts)) = [out]
  rw [parseEmailBodyWith]
  rw [show (String.mk (List.intercalate [' '] ts)).data = List.intercalate [' '] ts from rfl]
  rw [if_neg hlnne, splitOnCL_sep_free (by decide) hnotinf]
  rw [List.map_cons, List.map_nil, htrim, List.filter_cons_of_pos hpref, List.filter_nil,
    List.map_cons, List.map_nil, htoks, hparse]
  rfl

/-- C9: serializing any parsed record with the 2-decimal line format and
re-parsing the resulting one-line matrix yields exactly one record: the
original with its symbol and timeframe intact and every numeric value
rounded to two decimals.  The sub-day two-token timeframe re-enters the
`Min` branch on re-parse. -/
theorem serialization_roundtrip (body : String) (r : MatrixItem)
    (h : r ∈ parseEmailBody body) :
    parseEmailBody (generateRawMatrix [r]) = [roundRec r] := by
  obtain ⟨⟨hsne, hsws, hspref, hsbr⟩, ⟨hpn, hcn, hln⟩, hshape⟩ := record_shape h
  have hgen : generateRawMatrix [r] = String.mk (formatRowCL r) := by
    simp only [generateRawMatrix, List.map_cons, List.map_nil, intercalate_single_any]
  rcases hshape with ⟨htne, htws, htbr, hlev⟩ | ⟨t, htne, htws, htbr, htf, hlev⟩
  · -- other branch: single-token timeframe, 4 levels
    have hlvne : r.levels.map jsToFixed2 ≠ [] := by
      intro h0
      have := congrArg List.length h0
      simp [hlev] at this
    have hline : formatRowCL r =
        List.intercalate [' '] (r.symbol :: r.timeframe :: jsToFixed2 r.price ::
          jsToFixed2 r.count :: r.levels.map jsToFixed2) := by
      rw [intercalate_cons _ (by simp), intercalate_cons _ (by simp),
        intercalate_cons _ (by simp), intercalate_cons _ (by simpa using hlvne)]
      simp [formatRowCL, List.append_assoc]
    have hfacts : ∀ tk ∈ (r.symbol :: r.timeframe :: jsToFixed2 r.price ::
        jsToFixed2 r.count :: r.levels.map jsToFixed2), tk ≠ [] ∧ ∀ c ∈ tk, isWs c = false := by
      intro tk htk
      simp only [List.mem_cons, List.mem_map] at htk
      rcases htk with rfl | rfl | rfl | rfl | ⟨y, _, rfl⟩
      · exact ⟨hsne, hsws⟩
      · exact ⟨htne, htws⟩
      · exact ⟨(jsToFixed2_chars r.price).1, fun c hc => ((jsToFixed2_chars r.price).2 c hc).1⟩
      · exact ⟨(jsToFixed2_chars r.count).1, fun c hc => ((jsToFixed2_chars r.count).2 c hc).1⟩
      · exact ⟨(jsToFixed2_chars y).1, fun c hc => ((jsToFixed2_chars y).2 c hc).1⟩
    have hbrfree : ∀ tk ∈ (r.symbol :: r.timeframe :: jsToFixed2 r.price ::
        jsToFixed2 r.count :: r.levels.map jsToFixed2), ¬ brTag <:+: tk := by
      intro tk htk
      simp only [List.mem_cons, List.mem_map] at htk
      rcases htk with rfl | rfl | rfl | rfl | ⟨y, _, rfl⟩
      · exact hsbr
      · exact htbr
      · exact jsToFixed2_no_brTag r.price
      · exact jsToFixed2_no_brTag r.count
      · exact jsToFixed2_no_brTag y
    have hpref2 : symTag.isPrefixOf (List.intercalate [' ']
        (r.symbol :: r.timeframe :: jsToFixed2 r.price :: jsToFixed2 r.count ::
          r.levels.map jsToFixed2)) = true := by
      rw [List.isPrefixOf_iff_prefix, intercalate_cons _ (by simp)]
      exact hspref.trans (List.prefix_append _ _)
    rw [hgen, show String.mk (formatRowCL r) =
      String.mk (List.intercalate [' '] (r.symbol :: r.timeframe :: jsToFixed2 r.price ::
        jsToFixed2 r.count :: r.levels.map jsToFixed2)) from by rw [hline]]
    exact pipeline_on_join hfacts hbrfree (by simp) hpref2
      (parseTokens_format_daily hpn hcn hln hlev)
  · -- sub-day branch: timeframe `t ++ " Min"`, 3 or 4 levels
    have hlvne : r.levels.map jsToFixed2 ≠ [] := by
      intro h0
      have := congrArg List.length h0
      rcases hlev with h4 | h4 <;> simp [h4] at this
    have hline : formatRowCL r =
        List.intercalate [' '] (r.symbol :: t :: tagMin :: jsToFixed2 r.price ::
          jsToFixed2 r.count :: r.levels.map jsToFixed2) := by
      rw [intercalate_cons _ (by simp), intercalate_cons _ (by simp),
        intercalate_cons _ (by simp), intercalate_cons _ (by simp),
        intercalate_cons _ (by simpa using hlvne)]
      rw [formatRowCL, htf]
      simp [List.append_assoc]
    have hfacts : ∀ tk ∈ (r.symbol :: t :: tagMin :: jsToFixed2 r.price ::
        jsToFixed2 r.count :: r.levels.map jsToFixed2), tk ≠ [] ∧ ∀ c ∈ tk, isWs c = false := by
      intro tk htk
      simp only [List.mem_cons, List.mem_map] at htk
      rcases htk with rfl | rfl | rfl | rfl | rfl | ⟨y, _, rfl⟩
      · exact ⟨hsne, hsws⟩
      · exact ⟨htne, htws⟩
      · exact ⟨by decide, by decide⟩
      · exact ⟨(jsToFixed2_chars r.price).1, fun c hc => ((jsToFixed2_chars r.price).2 c hc).1⟩
      · exact ⟨(jsToFixed2_chars r.count).1, fun c hc => ((jsToFixed2_chars r.count).2 c hc).1⟩
      · exact ⟨(jsToFixed2_chars y).1, fun c hc => ((jsToFixed2_chars y).2 c hc).1⟩
    have hbrfree : ∀ tk ∈ (r.symbol :: t :: tagMin :: jsToFixed2 r.price ::
        jsToFixed2 r.count :: r.levels.map jsToFixed2), ¬ brTag <:+: tk := by
      intro tk htk
      simp only [List.mem_cons, List.mem_map] at htk
      rcases htk with rfl | rfl | rfl | rfl | rfl | ⟨y, _, rfl⟩
      · exact hsbr
      · exact htbr
      · exact tagMin_no_brTag
      · exact jsToFixed2_no_brTag r.price
      · exact jsToFixed2_no_brTag r.count
      · exact jsToFixed2_no_brTag y
    have hpref2 : symTag.isPrefixOf (List.intercalate [' ']
        (r.symbol :: t :: tagMin :: jsToFixed2 r.price :: jsToFixed2 r.count ::
          r.levels.map jsToFixed2)) = true := by
      rw [List.isPrefixOf_iff_prefix, intercalate_cons _ (by simp)]
      exact hspref.trans (List.prefix_append _ _)
    rw [hgen, show String.mk (formatRowCL r) =
      String.mk (List.intercalate [' '] (r.symbol :: t :: tagMin :: jsToFixed2 r.price ::
        jsToFixed2 r.count :: r.levels.map jsToFixed2)) from by rw [hline]]
    exact pipeline_on_join hfacts hbrfree (by simp) hpref2
      (parseTokens_format_min hpn hcn hln hlev htf)
/-- Witness for C9: the sub-day record parsed from the 8-token sample line
round-trips through its formatted line. -/
theorem serialization_roundtrip_at_inputs :
    parseEmailBody (generateRawMatrix [recMin8]) = [roundRec recMin8] :=
  serialization_roundtrip "@ES 5 Min 4,500.25 12 4490.00 4495.00 4510.00" recMin8
    (by decide)
